import Mathlib

/-!
Verification of the generative-art-editor's dependency-resolution and
graph-evaluation core, shallowly embedded from the Rust sources
(`src/dependency_resolution.rs`, `src/draw.rs`, `src/main.rs`).

Conventions of the embedding:
* `usize` indices become `Nat`; no machine overflow matters at the sizes
  involved (indices into in-memory vectors).
* `f32`/`f64` become `Rat`. The claims under verification only store, copy
  and compare these values structurally; no floating-point rounding is
  exercised, so an exact numeric type is a faithful carrier.
* Rust code that can panic (out-of-bounds `Vec` indexing, `todo!()`) or
  diverge (unbounded recursion) is embedded with `Option`/`Except` results
  or an explicit fuel parameter, as noted at each definition.
* `HashMap` is embedded as an association list used only through
  lookup/insert/remove, which is observationally equivalent for the code
  under study (the maps are never iterated by the embedded operations).
-/

/-! ## Dependency graph (`src/dependency_resolution.rs`) -/

/-- `Node<T>` from `dependency_resolution.rs`: display name, the indices this
node depends on, the inverse edge list, and a payload value. -/
structure DepNode (T : Type) where
  name : String
  depends_on : List Nat
  is_dependent_of : List Nat
  value : T
deriving Repr, DecidableEq

/-- `Graph<T>`: an insertion-ordered vector of nodes. -/
structure Graph (T : Type) where
  nodes : List (DepNode T)
deriving Repr, DecidableEq

/-- `depends_on` list of node `i`.  In Rust this is `self.nodes[i].depends_on`,
which panics when `i` is out of bounds; every theorem below assumes
`GraphValid`, under which the out-of-bounds branch (here defaulted to `[]`)
is unreachable. -/
def depsOf {T : Type} (g : Graph T) (i : Nat) : List Nat :=
  match g.nodes.get? i with
  | some nd => nd.depends_on
  | none => []

/-- All dependency edges point at genuine nodes of the graph (the implicit
well-formedness invariant maintained by `add` / `specify_dependencies` /
`add_dependency`, all of which only record indices of existing nodes). -/
def GraphValid {T : Type} (g : Graph T) : Prop :=
  ∀ nd ∈ g.nodes, ∀ d ∈ nd.depends_on, d < g.nodes.length

instance graphValidDecidable {T : Type} [DecidableEq T] (g : Graph T) :
    Decidable (GraphValid g) := by
  unfold GraphValid; infer_instance

/-- The proposition decided by `does_transient_dependency_exist`: target `i`
is reachable from some entry of `deps` by following zero or more further
depends-on edges. -/
inductive DReach {T : Type} (g : Graph T) (i : Nat) : List Nat → Prop
  | mem {deps : List Nat} : i ∈ deps → DReach g i deps
  | step {deps : List Nat} {n : Nat} :
      n ∈ deps → DReach g i (depsOf g n) → DReach g i deps

/-- A graph is acyclic when no node transitively depends on itself. -/
def Acyclic {T : Type} (g : Graph T) : Prop :=
  ∀ i, ¬ DReach g i (depsOf g i)

/-- Inner loop of `does_transient_dependency_exist`: walk the `depends_on`
list; `recur` is the recursive call one level deeper, or `none` when the
depth budget is exhausted. -/
def dtdeGo {T : Type} (g : Graph T) (recur : Option (List Nat → Nat → Option Bool))
    (i : Nat) : List Nat → Option Bool
  | [] => some false
  | n :: rest =>
    if i = n then some true
    else
      match recur with
      | none => none
      | some f =>
        match f (depsOf g n) i with
        | none => none
        | some true => some true
        | some false => dtdeGo g recur i rest

/-- `does_transient_dependency_exist` from `dependency_resolution.rs`.
The Rust function recurses without any guard and can diverge on cyclic
input; `fuel` bounds the recursion depth and `none` represents exhausting
it (hence possible divergence of the original).  A result of `some b` is
exactly the value the Rust function returns. -/
def dtde {T : Type} (g : Graph T) : Nat → List Nat → Nat → Option Bool
  | 0, deps, i => dtdeGo g none i deps
  | fuel + 1, deps, i => dtdeGo g (some (dtde g fuel)) i deps

/-- Insert into a list at position `j` (Rust `Vec::insert`; the Rust call
panics for `j > len`, which never occurs below because `find_insert_index`
returns at most the length). -/
def insertAt : List Nat → Nat → Nat → List Nat
  | l, 0, a => a :: l
  | [], _ + 1, a => [a]
  | x :: xs, j + 1, a => x :: insertAt xs j a

/-- `find_insert_index`: first position of the partially built list whose
resident node transitively depends on `i`, else the list length.  `none`
propagates fuel exhaustion of the inner reachability check. -/
def find_insert_index {T : Type} (g : Graph T) (fuel : Nat) (L : List Nat)
    (i : Nat) : Option Nat :=
  match L with
  | [] => some 0
  | j :: rest =>
    match dtde g fuel (depsOf g j) i with
    | none => none
    | some true => some 0
    | some false => (find_insert_index g fuel rest i).map (· + 1)

/-- The insertion loop shared by `calculate_order` and
`calculate_order_indices`, tracking the node indices of the partially built
output list (the two Rust functions insert into their vectors at identical
positions, so the index list determines both). -/
def calcLoop {T : Type} (g : Graph T) (fuel : Nat) :
    List Nat → List Nat → Option (List Nat)
  | [], L => some L
  | i :: todo, L =>
    match find_insert_index g fuel L i with
    | none => none
    | some j => calcLoop g fuel todo (insertAt L j i)

/-- `calculate_order_indices`: process the nodes in insertion order, placing
each immediately before the first already placed node that transitively
depends on it. -/
def calculate_order_indices {T : Type} (g : Graph T) (fuel : Nat) :
    Option (List Nat) :=
  calcLoop g fuel (List.range g.nodes.length) []

/-- Inner loop of `is_order_valid`, carrying the list of already seen nodes.
The Rust function compares node addresses; since distinct vector elements
have distinct addresses and `calculate_order` hands back references into
`self.nodes`, node identity is exactly index identity, which is what is
tracked here. -/
def isOrderValidGo {T : Type} (g : Graph T) (prior : List Nat) :
    List Nat → Bool
  | [] => true
  | x :: rest =>
    if (depsOf g x).all (fun d => prior.contains d) then
      isOrderValidGo g (prior ++ [x]) rest
    else false

/-- `is_order_valid`: every dependency of every node of the candidate order
appears strictly earlier in the order. -/
def is_order_valid {T : Type} (g : Graph T) (order : List Nat) : Bool :=
  isOrderValidGo g [] order

/-- Record a single `a depends on b` pair, pushing onto both adjacency
lists exactly as the closure in `specify_dependencies` does. -/
def addDep {T : Type} (g : Graph T) (a b : Nat) : Graph T :=
  { nodes := g.nodes.mapIdx (fun idx nd =>
      let nd' := if idx = a then { nd with depends_on := nd.depends_on ++ [b] } else nd
      if idx = b then { nd' with is_dependent_of := nd'.is_dependent_of ++ [a] } else nd') }

/-- `specify_dependencies` over a list of pairs (the `Vec<(usize, usize)>`
impl of `DependencyChain`). -/
def specify_dependencies {T : Type} (g : Graph T) (deps : List (Nat × Nat)) : Graph T :=
  deps.foldl (fun g p => addDep g p.1 p.2) g

/-- A named node with no edges yet, as built by `impl From<&str> for Node<T>`. -/
def namedNode (s : String) : DepNode Unit :=
  { name := s, depends_on := [], is_dependent_of := [], value := () }

/-! ### Unfolding equations for `dtde`

Stated once so that later proofs rewrite with exactly these shapes instead
of unfolding the two-level definition. -/

theorem dtde_nil {T : Type} (g : Graph T) (fuel i : Nat) :
    dtde g fuel [] i = some false := by
  cases fuel <;> rfl

theorem dtde_zero_cons {T : Type} (g : Graph T) (n : Nat) (rest : List Nat)
    (i : Nat) :
    dtde g 0 (n :: rest) i = if i = n then some true else none := rfl

theorem dtde_succ_cons {T : Type} (g : Graph T) (f n : Nat) (rest : List Nat)
    (i : Nat) :
    dtde g (f + 1) (n :: rest) i =
      if i = n then some true
      else
        match dtde g f (depsOf g n) i with
        | none => none
        | some true => some true
        | some false => dtde g (f + 1) rest i := rfl

/-! ### Fuel monotonicity

A `some` answer of `does_transient_dependency_exist` is stable under giving
the embedding more recursion depth — needed to read "the computation
terminates with this value" off any particular fuel. -/

theorem dtde_succ_mono {T : Type} (g : Graph T) :
    ∀ fuel deps i b, dtde g fuel deps i = some b →
      dtde g (fuel + 1) deps i = some b := by
  intro fuel
  induction fuel with
  | zero =>
    intro deps
    induction deps with
    | nil => intro i b h; exact h
    | cons n rest ih =>
      intro i b h
      rw [dtde_zero_cons] at h
      by_cases hin : i = n
      · rw [dtde_succ_cons, if_pos hin]; rwa [if_pos hin] at h
      · rw [if_neg hin] at h; exact absurd h (by simp)
  | succ f ihf =>
    intro deps
    induction deps with
    | nil => intro i b h; exact h
    | cons n rest ih =>
      intro i b h
      rw [dtde_succ_cons] at h
      rw [dtde_succ_cons]
      by_cases hin : i = n
      · rwa [if_pos hin] at h ⊢
      · rw [if_neg hin] at h ⊢
        cases hrec : dtde g f (depsOf g n) i with
        | none => rw [hrec] at h; simp at h
        | some v =>
          rw [hrec] at h
          rw [ihf _ _ _ hrec]
          cases v with
          | true => simpa using h
          | false =>
            simp only at h ⊢
            exact ih i b h

theorem dtde_mono {T : Type} (g : Graph T) {fuel fuel' : Nat} (hle : fuel ≤ fuel')
    {deps : List Nat} {i : Nat} {b : Bool} (h : dtde g fuel deps i = some b) :
    dtde g fuel' deps i = some b := by
  induction hle with
  | refl => exact h
  | step _ ih => exact dtde_succ_mono g _ _ _ _ ih

theorem find_insert_index_mono {T : Type} (g : Graph T) {fuel fuel' : Nat}
    (hle : fuel ≤ fuel') :
    ∀ L i j, find_insert_index g fuel L i = some j →
      find_insert_index g fuel' L i = some j := by
  intro L
  induction L with
  | nil => intro i j h; exact h
  | cons x rest ih =>
    intro i j h
    simp only [find_insert_index] at h ⊢
    cases hd : dtde g fuel (depsOf g x) i with
    | none => rw [hd] at h; simp at h
    | some v =>
      rw [hd] at h
      rw [dtde_mono g hle hd]
      cases v with
      | true => simpa using h
      | false =>
        simp only [Option.map_eq_some'] at h ⊢
        obtain ⟨j', hj', rfl⟩ := h
        exact ⟨j', ih i j' hj', rfl⟩

theorem calcLoop_mono {T : Type} (g : Graph T) {fuel fuel' : Nat}
    (hle : fuel ≤ fuel') :
    ∀ todo L out, calcLoop g fuel todo L = some out →
      calcLoop g fuel' todo L = some out := by
  intro todo
  induction todo with
  | nil => intro L out h; exact h
  | cons i rest ih =>
    intro L out h
    simp only [calcLoop] at h ⊢
    cases hf : find_insert_index g fuel L i with
    | none => rw [hf] at h; simp at h
    | some j =>
      rw [hf] at h
      rw [find_insert_index_mono g hle _ _ _ hf]
      exact ih _ _ h

/-- The graph of the `complex_deps_invalid` test: nodes C, B, A added in that
order, with A→B, B→C, C→A (a cycle). -/
def cyclicTestGraph : Graph Unit :=
  specify_dependencies
    { nodes := [namedNode "C", namedNode "B", namedNode "A"] }
    [(2, 1), (1, 0), (0, 2)]

/-- C6: on the cyclic three-node graph (A depends on B, B on C, C on A, with
C, B, A inserted at indices 0, 1, 2 in that order) `calculate_order_indices`
terminates — recursion-depth fuel 10 and every larger budget return the same
order `[A, B, C]` (indices `[2, 1, 0]`) — and `is_order_valid` flags that
order invalid. -/
theorem cycle_order_flagged_invalid :
    calculate_order_indices cyclicTestGraph 10 = some [2, 1, 0] ∧
    (∀ fuel : Nat, 10 ≤ fuel →
      calculate_order_indices cyclicTestGraph fuel = some [2, 1, 0]) ∧
    is_order_valid cyclicTestGraph [2, 1, 0] = false := by
  refine ⟨by decide, ?_, by decide⟩
  intro fuel hfuel
  exact calcLoop_mono cyclicTestGraph hfuel _ _ _ (by decide)

/-- C6 witness: the universally quantified conjunct instantiated at fuel 11. -/
theorem cycle_order_flagged_invalid_at_11 :
    calculate_order_indices cyclicTestGraph 11 = some [2, 1, 0] :=
  cycle_order_flagged_invalid.2.1 11 (by decide)

/-! ### Soundness and completeness of `does_transient_dependency_exist`
with respect to `DReach`. -/

theorem dreach_sub {T : Type} {g : Graph T} {i : Nat} {deps deps' : List Nat}
    (h : DReach g i deps) (hsub : deps ⊆ deps') : DReach g i deps' := by
  induction h with
  | mem hm => exact DReach.mem (hsub hm)
  | step hn _ _ => exact DReach.step (hsub hn) (by assumption)

theorem dreach_nil {T : Type} (g : Graph T) (i : Nat) : ¬ DReach g i [] := by
  intro h
  cases h with
  | mem hm => exact absurd hm (List.not_mem_nil i)
  | step hn _ => exact absurd hn (List.not_mem_nil _)

/-- Transitivity: if `m` is reachable from `deps` and `c` is reachable from
`m`'s dependencies, then `c` is reachable from `deps`. -/
theorem dreach_trans {T : Type} {g : Graph T} {m c : Nat} {deps : List Nat}
    (h1 : DReach g m deps) (h2 : DReach g c (depsOf g m)) : DReach g c deps := by
  induction h1 with
  | mem hm => exact DReach.step hm h2
  | step hn _ ih => exact DReach.step hn ih

theorem dtde_sound_true {T : Type} (g : Graph T) :
    ∀ fuel deps i, dtde g fuel deps i = some true → DReach g i deps := by
  intro fuel
  induction fuel with
  | zero =>
    intro deps
    induction deps with
    | nil => intro i h; rw [dtde_nil] at h; exact absurd h (by simp)
    | cons n rest ih =>
      intro i h
      rw [dtde_zero_cons] at h
      by_cases hin : i = n
      · exact DReach.mem (hin ▸ List.mem_cons_self n rest)
      · rw [if_neg hin] at h; exact absurd h (by simp)
  | succ f ihf =>
    intro deps
    induction deps with
    | nil => intro i h; rw [dtde_nil] at h; exact absurd h (by simp)
    | cons n rest ih =>
      intro i h
      rw [dtde_succ_cons] at h
      by_cases hin : i = n
      · exact DReach.mem (hin ▸ List.mem_cons_self n rest)
      · rw [if_neg hin] at h
        cases hrec : dtde g f (depsOf g n) i with
        | none => rw [hrec] at h; simp at h
        | some v =>
          rw [hrec] at h
          cases v with
          | true =>
            exact DReach.step (List.mem_cons_self n rest) (ihf _ _ hrec)
          | false =>
            simp only at h
            exact dreach_sub (ih i h) (List.subset_cons_self n rest)

/-- Walking a list in which the target itself occurs never yields `false`
(the scan stops with `true` at the first occurrence unless it aborts with
`none` beforehand). -/
theorem dtde_not_false_of_self_mem {T : Type} (g : Graph T) :
    ∀ deps i fuel, i ∈ deps → dtde g fuel deps i ≠ some false := by
  intro deps
  induction deps with
  | nil => intro i fuel h; exact absurd h (List.not_mem_nil i)
  | cons n rest ih =>
    intro i fuel h hfalse
    by_cases hin : i = n
    · cases fuel with
      | zero => rw [dtde_zero_cons, if_pos hin] at hfalse; simp at hfalse
      | succ f => rw [dtde_succ_cons, if_pos hin] at hfalse; simp at hfalse
    · have hmem : i ∈ rest := by
        cases List.mem_cons.1 h with
        | inl heq => exact absurd heq hin
        | inr hm => exact hm
      cases fuel with
      | zero => rw [dtde_zero_cons, if_neg hin] at hfalse; simp at hfalse
      | succ f =>
        rw [dtde_succ_cons, if_neg hin] at hfalse
        cases hrec : dtde g f (depsOf g n) i with
        | none => rw [hrec] at hfalse; simp at hfalse
        | some v =>
          rw [hrec] at hfalse
          cases v with
          | true => simp at hfalse
          | false => exact ih i (f + 1) hmem hfalse

/-- If some member `n` of the scanned list can never answer `false` for the
target, neither can the scan of the whole list. -/
theorem dtde_not_false_of_mem {T : Type} (g : Graph T) {i n : Nat}
    (hnever : ∀ f', dtde g f' (depsOf g n) i ≠ some false) :
    ∀ deps fuel, n ∈ deps → dtde g fuel deps i ≠ some false := by
  intro deps
  induction deps with
  | nil => intro fuel h; exact absurd h (List.not_mem_nil n)
  | cons m rest ih =>
    intro fuel hmem hfalse
    by_cases hin : i = m
    · cases fuel with
      | zero => rw [dtde_zero_cons, if_pos hin] at hfalse; simp at hfalse
      | succ f => rw [dtde_succ_cons, if_pos hin] at hfalse; simp at hfalse
    · cases fuel with
      | zero => rw [dtde_zero_cons, if_neg hin] at hfalse; simp at hfalse
      | succ f =>
        rw [dtde_succ_cons, if_neg hin] at hfalse
        cases hrec : dtde g f (depsOf g m) i with
        | none => rw [hrec] at hfalse; simp at hfalse
        | some v =>
          rw [hrec] at hfalse
          cases v with
          | true => simp at hfalse
          | false =>
            simp only at hfalse
            cases List.mem_cons.1 hmem with
            | inl heq => exact hnever f (heq ▸ hrec)
            | inr hm => exact ih (f + 1) hm hfalse

/-- Completeness: if the target is genuinely reachable, the scan never
returns `false` at any recursion depth. -/
theorem dtde_complete {T : Type} {g : Graph T} {i : Nat} {deps : List Nat}
    (h : DReach g i deps) : ∀ fuel, dtde g fuel deps i ≠ some false := by
  induction h with
  | mem hm => intro fuel; exact dtde_not_false_of_self_mem g _ _ fuel hm
  | step hn _ ih => intro fuel; exact dtde_not_false_of_mem g ih _ fuel hn

/-! ### Fuel adequacy on acyclic graphs

`none` answers correspond to dependency chains as long as the fuel; on a
valid acyclic graph no chain can be longer than the node count, so fuel
equal to the node count always suffices. -/

/-- `Chained g a t`: starting from node `a`, the entries of `t` follow one
depends-on edge at a time. -/
def Chained {T : Type} (g : Graph T) : Nat → List Nat → Prop
  | _, [] => True
  | a, b :: rest => b ∈ depsOf g a ∧ Chained g b rest

theorem dtde_none_path {T : Type} (g : Graph T) :
    ∀ fuel deps i, dtde g fuel deps i = none →
      ∃ h t, (h :: t : List Nat).length = fuel + 1 ∧ h ∈ deps ∧ Chained g h t := by
  intro fuel
  induction fuel with
  | zero =>
    intro deps
    induction deps with
    | nil => intro i h; rw [dtde_nil] at h; exact absurd h (by simp)
    | cons n rest ih =>
      intro i h
      exact ⟨n, [], rfl, List.mem_cons_self n rest, trivial⟩
  | succ f ihf =>
    intro deps
    induction deps with
    | nil => intro i h; rw [dtde_nil] at h; exact absurd h (by simp)
    | cons n rest ih =>
      intro i h
      rw [dtde_succ_cons] at h
      by_cases hin : i = n
      · rw [if_pos hin] at h; simp at h
      · rw [if_neg hin] at h
        cases hrec : dtde g f (depsOf g n) i with
        | none =>
          obtain ⟨h', t', hlen, hmem, hch⟩ := ihf _ i hrec
          exact ⟨n, h' :: t', by simpa using hlen, List.mem_cons_self n rest,
            hmem, hch⟩
        | some v =>
          rw [hrec] at h
          cases v with
          | true => simp at h
          | false =>
            simp only at h
            obtain ⟨h', t', hlen, hmem, hch⟩ := ih i h
            exact ⟨h', t', hlen, List.mem_cons_of_mem n hmem, hch⟩

theorem depsOf_lt {T : Type} {g : Graph T} (hv : GraphValid g) {a d : Nat}
    (hd : d ∈ depsOf g a) : d < g.nodes.length := by
  unfold depsOf at hd
  cases hget : g.nodes.get? a with
  | none => rw [hget] at hd; exact absurd hd (List.not_mem_nil d)
  | some nd =>
    rw [hget] at hd
    exact hv nd (List.get?_mem hget) d hd

theorem chained_lt {T : Type} {g : Graph T} (hv : GraphValid g) :
    ∀ t a, Chained g a t → ∀ x ∈ t, x < g.nodes.length := by
  intro t
  induction t with
  | nil => intro a _ x hx; exact absurd hx (List.not_mem_nil x)
  | cons b rest ih =>
    intro a hch x hx
    obtain ⟨hb, hrest⟩ := hch
    cases List.mem_cons.1 hx with
    | inl heq => exact heq ▸ depsOf_lt hv hb
    | inr hm => exact ih b hrest x hm

theorem chained_reach {T : Type} {g : Graph T} :
    ∀ t a x, Chained g a t → x ∈ t → DReach g x (depsOf g a) := by
  intro t
  induction t with
  | nil => intro a x _ hx; exact absurd hx (List.not_mem_nil x)
  | cons b rest ih =>
    intro a x hch hx
    obtain ⟨hb, hrest⟩ := hch
    cases List.mem_cons.1 hx with
    | inl heq => exact DReach.mem (heq ▸ hb)
    | inr hm => exact dreach_trans (DReach.mem hb) (ih b x hrest hm)

theorem chained_split {T : Type} {g : Graph T} :
    ∀ t1 h a t2, Chained g h (t1 ++ a :: t2) → Chained g a t2 := by
  intro t1
  induction t1 with
  | nil => intro h a t2 hch; exact hch.2
  | cons b rest ih =>
    intro h a t2 hch
    exact ih b a t2 hch.2

/-- A list that is not nodup contains an element twice, with explicit split. -/
theorem not_nodup_split :
    ∀ l : List Nat, ¬ l.Nodup →
      ∃ a l1 l2 l3, l = l1 ++ a :: l2 ++ a :: l3 := by
  intro l
  induction l with
  | nil => intro h; exact absurd List.nodup_nil h
  | cons x xs ih =>
    intro h
    by_cases hx : x ∈ xs
    · obtain ⟨s, t, hst⟩ := List.append_of_mem hx
      exact ⟨x, [], s, t, by simp [hst]⟩
    · have hnd : ¬ xs.Nodup := by
        intro hnd
        exact h (List.nodup_cons.2 ⟨hx, hnd⟩)
      obtain ⟨a, l1, l2, l3, heq⟩ := ih hnd
      exact ⟨a, x :: l1, l2, l3, by simp [heq]⟩

theorem length_le_of_nodup_lt {n : Nat} :
    ∀ l : List Nat, l.Nodup → (∀ x ∈ l, x < n) → l.length ≤ n := by
  intro l hnd hlt
  have hsub : l ⊆ List.range n := fun x hx => List.mem_range.2 (hlt x hx)
  simpa using (hnd.subperm hsub).length_le

/-- A chain with a duplicated node yields a node that transitively depends
on itself. -/
theorem chained_dup_cycle {T : Type} {g : Graph T} {h : Nat} {t : List Nat}
    (hch : Chained g h t) (hdup : ¬ (h :: t).Nodup) :
    ∃ a, DReach g a (depsOf g a) := by
  obtain ⟨a, l1, l2, l3, heq⟩ := not_nodup_split _ hdup
  cases l1 with
  | nil =>
    have hha : h = a := by simpa using congrArg (List.head?) heq
    have ht : t = l2 ++ a :: l3 := by simpa using congrArg (List.tail) heq
    refine ⟨a, ?_⟩
    have : DReach g a (depsOf g h) :=
      chained_reach t h a hch (ht ▸ (List.mem_append.2 (Or.inr (List.mem_cons_self a l3))))
    exact hha ▸ this
  | cons c l1' =>
    have ht : t = l1' ++ a :: l2 ++ a :: l3 := by
      have := congrArg (List.tail) heq
      simpa using this
    have hch2 : Chained g a (l2 ++ a :: l3) := by
      rw [ht] at hch
      exact chained_split l1' h a (l2 ++ a :: l3) (by simpa using hch)
    exact ⟨a, chained_reach _ a a hch2 (List.mem_append.2 (Or.inr (List.mem_cons_self a l3)))⟩

/-- On a valid acyclic graph, recursion depth equal to the node count never
runs out: `does_transient_dependency_exist` terminates. -/
theorem dtde_adequate {T : Type} {g : Graph T} (hv : GraphValid g)
    (ha : Acyclic g) {deps : List Nat} (hdeps : ∀ x ∈ deps, x < g.nodes.length)
    (i : Nat) : dtde g g.nodes.length deps i ≠ none := by
  intro hnone
  obtain ⟨h, t, hlen, hmem, hch⟩ := dtde_none_path g _ deps i hnone
  have hall : ∀ x ∈ h :: t, x < g.nodes.length := by
    intro x hx
    cases List.mem_cons.1 hx with
    | inl heq => exact heq ▸ hdeps h hmem
    | inr hm => exact chained_lt hv t h hch x hm
  have hnodup : ¬ (h :: t).Nodup := by
    intro hnd
    have := length_le_of_nodup_lt (h :: t) hnd hall
    omega
  obtain ⟨a, hcyc⟩ := chained_dup_cycle hch hnodup
  exact ha a hcyc

/-! ### `find_insert_index` and the insertion loop -/

theorem find_insert_index_spec {T : Type} (g : Graph T) (fuel : Nat) :
    ∀ L i j, find_insert_index g fuel L i = some j →
      ∃ L1 L2, L = L1 ++ L2 ∧ L1.length = j ∧
        (∀ x ∈ L1, dtde g fuel (depsOf g x) i = some false) ∧
        (∀ h t, L2 = h :: t → dtde g fuel (depsOf g h) i = some true) := by
  intro L
  induction L with
  | nil =>
    intro i j hj
    simp only [find_insert_index, Option.some_inj] at hj
    refine ⟨[], [], rfl, by simp [hj], by simp, ?_⟩
    intro h t ht
    cases ht
  | cons x rest ih =>
    intro i j hj
    simp only [find_insert_index] at hj
    cases hd : dtde g fuel (depsOf g x) i with
    | none => rw [hd] at hj; simp at hj
    | some v =>
      rw [hd] at hj
      cases v with
      | true =>
        simp only [Option.some_inj] at hj
        refine ⟨[], x :: rest, rfl, by simp [hj], by simp, ?_⟩
        intro h t ht
        cases ht
        exact hd
      | false =>
        simp only [Option.map_eq_some'] at hj
        obtain ⟨j', hj', rfl⟩ := hj
        obtain ⟨L1, L2, hL, hlen, hfalse, htrue⟩ := ih i j' hj'
        refine ⟨x :: L1, L2, by simp [hL], by simp [hlen], ?_, htrue⟩
        intro y hy
        cases List.mem_cons.1 hy with
        | inl heq => exact heq ▸ hd
        | inr hm => exact hfalse y hm

theorem find_insert_index_adequate {T : Type} {g : Graph T} (hv : GraphValid g)
    (ha : Acyclic g) : ∀ L i, find_insert_index g g.nodes.length L i ≠ none := by
  intro L
  induction L with
  | nil => intro i h; simp [find_insert_index] at h
  | cons x rest ih =>
    intro i h
    simp only [find_insert_index] at h
    cases hd : dtde g g.nodes.length (depsOf g x) i with
    | none => exact dtde_adequate hv ha (fun y hy => depsOf_lt hv hy) i hd
    | some v =>
      rw [hd] at h
      cases v with
      | true => simp at h
      | false =>
        simp only [Option.map_eq_none'] at h
        exact ih i h

theorem insertAt_append (a : Nat) :
    ∀ (L1 L2 : List Nat), insertAt (L1 ++ L2) L1.length a = L1 ++ a :: L2 := by
  intro L1
  induction L1 with
  | nil => intro L2; cases L2 <;> rfl
  | cons x xs ih => intro L2; simp [insertAt, ih]

theorem insertAt_perm (a : Nat) :
    ∀ (L : List Nat) (j : Nat), (insertAt L j a).Perm (a :: L) := by
  intro L
  induction L with
  | nil => intro j; cases j <;> simp [insertAt]
  | cons x xs ih =>
    intro j
    cases j with
    | zero => simp [insertAt]
    | succ j' =>
      have h1 : insertAt (x :: xs) (j' + 1) a = x :: insertAt xs j' a := rfl
      rw [h1]
      exact ((ih j').cons x).trans (List.Perm.swap a x xs)

/-- The ordering invariant maintained by the insertion loop: no element of
the partially built list transitively depends on a later element. -/
def NoFwdDep {T : Type} (g : Graph T) (L : List Nat) : Prop :=
  L.Pairwise (fun a b => ¬ DReach g b (depsOf g a))

theorem insert_preserves_nofwd {T : Type} {g : Graph T} (ha : Acyclic g)
    {L : List Nat} {i j : Nat} (hinv : NoFwdDep g L)
    (hfind : find_insert_index g g.nodes.length L i = some j) :
    NoFwdDep g (insertAt L j i) := by
  obtain ⟨L1, L2, hL, hlen, hfalse, htrue⟩ :=
    find_insert_index_spec g _ L i j hfind
  subst hL
  rw [← hlen, insertAt_append]
  rw [NoFwdDep, List.pairwise_append] at hinv
  obtain ⟨h1, h2, hcross⟩ := hinv
  have hIB : ∀ b ∈ L2, ¬ DReach g b (depsOf g i) := by
    cases L2 with
    | nil => intro b hb; exact absurd hb (List.not_mem_nil b)
    | cons h t =>
      have hreach : DReach g i (depsOf g h) :=
        dtde_sound_true g _ _ _ (htrue h t rfl)
      intro b hb hbad
      have hhb : DReach g b (depsOf g h) := dreach_trans hreach hbad
      cases List.mem_cons.1 hb with
      | inl heq => exact ha h (heq ▸ hhb)
      | inr hm => exact (List.pairwise_cons.1 h2).1 b hm hhb
  rw [NoFwdDep, List.pairwise_append]
  refine ⟨h1, List.pairwise_cons.2 ⟨hIB, h2⟩, ?_⟩
  intro a haL1 b hb
  cases List.mem_cons.1 hb with
  | inl heq =>
    subst heq
    intro hbad
    exact dtde_complete hbad _ (hfalse a haL1)
  | inr hm => exact hcross a haL1 b hm

theorem calcLoop_invariant {T : Type} {g : Graph T} (hv : GraphValid g)
    (ha : Acyclic g) :
    ∀ todo L, NoFwdDep g L →
      ∃ out, calcLoop g g.nodes.length todo L = some out ∧
        NoFwdDep g out ∧ out.Perm (L ++ todo) := by
  intro todo
  induction todo with
  | nil => intro L h; exact ⟨L, rfl, h, by simp⟩
  | cons i rest ih =>
    intro L hL
    cases hf : find_insert_index g g.nodes.length L i with
    | none => exact absurd hf (find_insert_index_adequate hv ha L i)
    | some j =>
      obtain ⟨out, hout, hnofwd, hperm⟩ :=
        ih (insertAt L j i) (insert_preserves_nofwd ha hL hf)
      refine ⟨out, ?_, hnofwd, ?_⟩
      · simp [calcLoop, hf, hout]
      · refine hperm.trans ?_
        refine ((insertAt_perm i L j).append_right rest).trans ?_
        simpa using List.perm_middle.symm

theorem isOrderValidGo_of_earlier {T : Type} (g : Graph T) :
    ∀ (rest prior : List Nat),
      (∀ (p : Nat) (hp : p < rest.length) (d : Nat),
        d ∈ depsOf g (rest.get ⟨p, hp⟩) →
          d ∈ prior ∨ ∃ q, q < p ∧ rest.get? q = some d) →
      isOrderValidGo g prior rest = true := by
  intro rest
  induction rest with
  | nil => intro prior _; rfl
  | cons x rest' ih =>
    intro prior hcond
    have hhead : ∀ d ∈ depsOf g x, d ∈ prior := by
      intro d hd
      rcases hcond 0 (by simp) d (by simpa using hd) with h | ⟨q, hq, _⟩
      · exact h
      · omega
    have hall : (depsOf g x).all (fun d => prior.contains d) = true := by
      simp only [List.all_eq_true]
      intro d hd
      simpa [List.contains] using List.elem_iff.2 (hhead d hd)
    show isOrderValidGo g prior (x :: rest') = true
    rw [isOrderValidGo, if_pos hall]
    apply ih (prior ++ [x])
    intro p hp d hd
    have hstep := hcond (p + 1) (by simpa using Nat.succ_lt_succ hp) d
      (by simpa using hd)
    rcases hstep with h | ⟨q, hq, hget⟩
    · exact Or.inl (List.mem_append.2 (Or.inl h))
    · cases q with
      | zero =>
        have hxd : x = d := by simpa using hget
        exact Or.inl (List.mem_append.2 (Or.inr (by simp [hxd])))
      | succ q' =>
        exact Or.inr ⟨q', by omega, by simpa using hget⟩

/-- C1: on every valid acyclic graph, `calculate_order_indices` terminates
(with recursion-depth fuel equal to the node count, which the adequacy
results show suffices) and yields a sequence containing every node exactly
once in which each node's recorded dependencies occupy strictly earlier
positions; `is_order_valid` accepts that sequence. -/
theorem calculate_order_topological {T : Type} {g : Graph T}
    (hv : GraphValid g) (ha : Acyclic g) :
    ∃ L, calculate_order_indices g g.nodes.length = some L ∧
      L.Perm (List.range g.nodes.length) ∧
      (∀ (p : Nat) (hp : p < L.length) (d : Nat),
        d ∈ depsOf g (L.get ⟨p, hp⟩) → ∃ q, q < p ∧ L.get? q = some d) ∧
      is_order_valid g L = true := by
  obtain ⟨out, hout, hnofwd, hperm⟩ :=
    calcLoop_invariant hv ha (List.range g.nodes.length) [] List.Pairwise.nil
  have hperm' : out.Perm (List.range g.nodes.length) := by simpa using hperm
  have horder : ∀ (p : Nat) (hp : p < out.length) (d : Nat),
      d ∈ depsOf g (out.get ⟨p, hp⟩) → ∃ q, q < p ∧ out.get? q = some d := by
    intro p hp d hd
    have hdlt : d < g.nodes.length := depsOf_lt hv hd
    have hdmem : d ∈ out := hperm'.mem_iff.2 (List.mem_range.2 hdlt)
    obtain ⟨q, hq⟩ := List.mem_iff_get.1 hdmem
    rcases lt_trichotomy (q : Nat) p with hlt | heq | hgt
    · exact ⟨q, hlt, by rw [List.get?_eq_get q.isLt, hq]⟩
    · exfalso
      have hxd : out.get ⟨p, hp⟩ = d := by
        rw [← hq]; congr 1; exact (Fin.ext heq).symm
      rw [hxd] at hd
      exact ha d (DReach.mem hd)
    · exfalso
      have hR := List.pairwise_iff_get.1 hnofwd ⟨p, hp⟩ q hgt
      rw [hq] at hR
      exact hR (DReach.mem hd)
  refine ⟨out, hout, hperm', horder, ?_⟩
  apply isOrderValidGo_of_earlier g out []
  intro p hp d hd
  exact Or.inr (horder p hp d hd)

theorem depsOf_ge {T : Type} {g : Graph T} {i : Nat} (h : g.nodes.length ≤ i) :
    depsOf g i = [] := by
  unfold depsOf
  rw [List.get?_eq_none.2 h]

/-- Certifying acyclicity by running the code's own reachability check on
every node (usable by `decide` on concrete graphs). -/
theorem acyclic_of_checks {T : Type} {g : Graph T}
    (h : ∀ i ∈ List.range g.nodes.length,
      dtde g g.nodes.length (depsOf g i) i = some false) : Acyclic g := by
  intro i hreach
  by_cases hi : i < g.nodes.length
  · exact dtde_complete hreach _ (h i (List.mem_range.2 hi))
  · rw [depsOf_ge (Nat.le_of_not_lt hi)] at hreach
    exact dreach_nil g i hreach

/-- The graph of the `complex_deps2` test: nodes C, B, A, E, D at indices
0..4 with A→C, C→E, B→D, A→B, D→E. -/
def complexTestGraph : Graph Unit :=
  specify_dependencies
    { nodes := [namedNode "C", namedNode "B", namedNode "A",
                namedNode "E", namedNode "D"] }
    [(4, 3), (2, 0), (0, 3), (1, 4), (2, 1)]

/-- C1 witness: the topological-validity theorem applied to the concrete
acyclic five-node test graph. -/
theorem calculate_order_topological_on_test :
    ∃ L, calculate_order_indices complexTestGraph complexTestGraph.nodes.length = some L ∧
      L.Perm (List.range complexTestGraph.nodes.length) ∧
      (∀ (p : Nat) (hp : p < L.length) (d : Nat),
        d ∈ depsOf complexTestGraph (L.get ⟨p, hp⟩) →
          ∃ q, q < p ∧ L.get? q = some d) ∧
      is_order_valid complexTestGraph L = true :=
  calculate_order_topological (by decide) (acyclic_of_checks (by decide))

/-- C9: on every valid acyclic graph, `does_transient_dependency_exist`
terminates on every starting list of in-range nodes and every target
(recursion depth bounded by the node count), answering `true` exactly when
the target is reachable along depends-on edges; consequently
`calculate_order` (which calls it through `find_insert_index`) terminates
as well. -/
theorem dtde_terminates_and_correct {T : Type} {g : Graph T}
    (hv : GraphValid g) (ha : Acyclic g) :
    (∀ deps, (∀ x ∈ deps, x < g.nodes.length) → ∀ i,
      ∃ b, dtde g g.nodes.length deps i = some b ∧
        (b = true ↔ DReach g i deps)) ∧
    ∃ L, calculate_order_indices g g.nodes.length = some L := by
  constructor
  · intro deps hdeps i
    cases hb : dtde g g.nodes.length deps i with
    | none => exact absurd hb (dtde_adequate hv ha hdeps i)
    | some b =>
      refine ⟨b, rfl, ?_, ?_⟩
      · intro hbt
        exact dtde_sound_true g _ _ _ (hbt ▸ hb)
      · intro hreach
        cases b with
        | true => rfl
        | false => exact absurd hb (dtde_complete hreach _)
  · obtain ⟨out, hout, _, _⟩ :=
      calcLoop_invariant hv ha (List.range g.nodes.length) [] List.Pairwise.nil
    exact ⟨out, hout⟩

/-- C9 witness: instantiated on the acyclic five-node test graph, for the
start list `[D]` and target `E`. -/
theorem dtde_terminates_on_test :
    (∃ b, dtde complexTestGraph complexTestGraph.nodes.length [4] 3 = some b ∧
      (b = true ↔ DReach complexTestGraph 3 [4])) ∧
    ∃ L, calculate_order_indices complexTestGraph
      complexTestGraph.nodes.length = some L :=
  ⟨(dtde_terminates_and_correct (by decide)
      (acyclic_of_checks (by decide))).1 [4] (by decide) 3,
   (dtde_terminates_and_correct (by decide)
      (acyclic_of_checks (by decide))).2⟩

/-! ### The tie-break rule (insertion-order preservation)

The claimed rule "dependency-unrelated nodes keep their insertion order"
fails: a node that an already placed node depends on is inserted *in front
of* that placed node, jumping past unrelated nodes that sit earlier in the
list.  Witness graph: `D` (index 0) depends on `Y` (index 2); `X` (index 1)
is unrelated to everything.  Processing inserts `Y` before `D`, so the
output is `[Y, D, X]` although `X` was added before `Y`. -/

def tieBreakGraph : Graph Unit :=
  specify_dependencies
    { nodes := [namedNode "D", namedNode "X", namedNode "Y"] }
    [(0, 2)]

/-- C7 counterexample: nodes X (index 1) and Y (index 2) of `tieBreakGraph`
are dependency-unrelated and X was added first, yet `calculate_order_indices`
places Y strictly before X. -/
theorem insertion_order_not_preserved :
    (1 : Nat) < 2 ∧
    ¬ DReach tieBreakGraph 2 (depsOf tieBreakGraph 1) ∧
    ¬ DReach tieBreakGraph 1 (depsOf tieBreakGraph 2) ∧
    calculate_order_indices tieBreakGraph tieBreakGraph.nodes.length =
      some [2, 0, 1] ∧
    List.indexOf 2 [2, 0, 1] < List.indexOf 1 [2, 0, 1] := by
  refine ⟨by decide, ?_, ?_, by decide, by decide⟩
  · have h : depsOf tieBreakGraph 1 = [] := by decide
    rw [h]; exact dreach_nil _ _
  · have h : depsOf tieBreakGraph 2 = [] := by decide
    rw [h]; exact dreach_nil _ _

/-! ### Amended tie-break rule

What does hold: two distinct nodes that *no* node transitively depends on
are both appended at the tail of the partially built list when processed,
so their relative output order is exactly their insertion order. -/

/-- `a` occupies a strictly earlier position than `b` in `l`. -/
def BeforeIn (a b : Nat) (l : List Nat) : Prop :=
  ∃ p q, p < q ∧ l.get? p = some a ∧ l.get? q = some b

theorem insertAt_get_lt (c : Nat) :
    ∀ (l : List Nat) (j p : Nat), p < j → p < l.length →
      (insertAt l j c).get? p = l.get? p := by
  intro l
  induction l with
  | nil => intro j p _ hp; simp at hp
  | cons x xs ih =>
    intro j p hpj hp
    cases j with
    | zero => omega
    | succ j' =>
      show (x :: insertAt xs j' c).get? p = (x :: xs).get? p
      cases p with
      | zero => rfl
      | succ p' =>
        simp only [List.get?_cons_succ]
        exact ih j' p' (by omega) (by simpa using hp)

theorem insertAt_get_ge (c : Nat) :
    ∀ (l : List Nat) (j p : Nat), j ≤ p →
      (insertAt l j c).get? (p + 1) = l.get? p := by
  intro l
  induction l with
  | nil =>
    intro j p hj
    cases j with
    | zero => simp [insertAt]
    | succ j' =>
      show ([c] : List Nat).get? (p + 1) = ([] : List Nat).get? p
      simp
  | cons x xs ih =>
    intro j p hj
    cases j with
    | zero => simp [insertAt]
    | succ j' =>
      cases p with
      | zero => omega
      | succ p' =>
        show (x :: insertAt xs j' c).get? (p' + 1 + 1) = (x :: xs).get? (p' + 1)
        simp only [List.get?_cons_succ]
        exact ih j' p' (by omega)

theorem beforeIn_insertAt {a b c : Nat} {l : List Nat} (j : Nat)
    (h : BeforeIn a b l) : BeforeIn a b (insertAt l j c) := by
  obtain ⟨p, q, hpq, hpa, hqb⟩ := h
  have hp : p < l.length := by
    by_contra hc
    rw [List.get?_eq_none.2 (Nat.le_of_not_lt hc)] at hpa
    cases hpa
  have hq : q < l.length := by
    by_contra hc
    rw [List.get?_eq_none.2 (Nat.le_of_not_lt hc)] at hqb
    cases hqb
  rcases Nat.lt_or_ge p j with hpj | hpj
  · rcases Nat.lt_or_ge q j with hqj | hqj
    · exact ⟨p, q, hpq,
        by rw [insertAt_get_lt c l j p hpj hp]; exact hpa,
        by rw [insertAt_get_lt c l j q hqj hq]; exact hqb⟩
    · exact ⟨p, q + 1, by omega,
        by rw [insertAt_get_lt c l j p hpj hp]; exact hpa,
        by rw [insertAt_get_ge c l j q hqj]; exact hqb⟩
  · exact ⟨p + 1, q + 1, by omega,
      by rw [insertAt_get_ge c l j p hpj]; exact hpa,
      by rw [insertAt_get_ge c l j q (by omega)]; exact hqb⟩

theorem calcLoop_preserves_before {T : Type} (g : Graph T) (fuel : Nat)
    {a b : Nat} :
    ∀ todo L out, calcLoop g fuel todo L = some out →
      BeforeIn a b L → BeforeIn a b out := by
  intro todo
  induction todo with
  | nil =>
    intro L out h hb
    simp only [calcLoop, Option.some_inj] at h
    exact h ▸ hb
  | cons i rest ih =>
    intro L out h hb
    simp only [calcLoop] at h
    cases hf : find_insert_index g fuel L i with
    | none => rw [hf] at h; simp at h
    | some j =>
      rw [hf] at h
      exact ih _ _ h (beforeIn_insertAt j hb)

theorem calcLoop_perm {T : Type} (g : Graph T) (fuel : Nat) :
    ∀ todo L out, calcLoop g fuel todo L = some out → out.Perm (L ++ todo) := by
  intro todo
  induction todo with
  | nil =>
    intro L out h
    simp only [calcLoop, Option.some_inj] at h
    simp [← h]
  | cons i rest ih =>
    intro L out h
    simp only [calcLoop] at h
    cases hf : find_insert_index g fuel L i with
    | none => rw [hf] at h; simp at h
    | some j =>
      rw [hf] at h
      refine (ih _ _ h).trans ?_
      refine ((insertAt_perm i L j).append_right rest).trans ?_
      simpa using List.perm_middle.symm

theorem calcLoop_append {T : Type} (g : Graph T) (fuel : Nat) :
    ∀ t1 t2 L, calcLoop g fuel (t1 ++ t2) L =
      match calcLoop g fuel t1 L with
      | none => none
      | some M => calcLoop g fuel t2 M := by
  intro t1
  induction t1 with
  | nil => intro t2 L; rfl
  | cons i rest ih =>
    intro t2 L
    show calcLoop g fuel (i :: (rest ++ t2)) L = _
    simp only [calcLoop]
    cases hf : find_insert_index g fuel L i with
    | none => rfl
    | some j => exact ih t2 (insertAt L j i)

/-- When nobody transitively depends on `i`, the scan of `find_insert_index`
never fires and `i` is appended at the end. -/
theorem find_insert_index_sink {T : Type} {g : Graph T} {i : Nat}
    (hno : ∀ z, ¬ DReach g i (depsOf g z)) :
    ∀ L fuel j, find_insert_index g fuel L i = some j → j = L.length := by
  intro L fuel j hj
  obtain ⟨L1, L2, hL, hlen, _, htrue⟩ := find_insert_index_spec g fuel L i j hj
  cases hL2 : L2 with
  | nil => rw [hL, hL2, ← hlen]; simp
  | cons h t => exact absurd (dtde_sound_true g _ _ _ (htrue h t hL2)) (hno h)

theorem insertAt_length_eq_concat (a : Nat) (l : List Nat) :
    insertAt l l.length a = l ++ [a] := by
  simpa using insertAt_append a l []

theorem range_split : ∀ (n Y : Nat), Y < n →
    ∃ rest, List.range n = List.range Y ++ Y :: rest ∧ ∀ c ∈ rest, Y < c := by
  intro n
  induction n with
  | zero => intro Y h; omega
  | succ m ih =>
    intro Y h
    rcases Nat.lt_or_ge Y m with hYm | hYm
    · obtain ⟨rest, hsplit, hrest⟩ := ih Y hYm
      refine ⟨rest ++ [m], ?_, ?_⟩
      · rw [List.range_succ, hsplit]; simp
      · intro c hc
        cases List.mem_append.1 hc with
        | inl hcr => exact hrest c hcr
        | inr hcm => simp at hcm; omega
    · have hYeq : Y = m := by omega
      subst hYeq
      exact ⟨[], by simp [List.range_succ], by simp⟩

theorem nodup_get?_inj {l : List Nat} (hnd : l.Nodup) {p q x : Nat}
    (hp : l.get? p = some x) (hq : l.get? q = some x) : p = q := by
  obtain ⟨hp', hgp⟩ := List.get?_eq_some.1 hp
  obtain ⟨hq', hgq⟩ := List.get?_eq_some.1 hq
  have hget : l.get ⟨p, hp'⟩ = l.get ⟨q, hq'⟩ := by rw [hgp, hgq]
  exact congrArg Fin.val (hnd.get_inj_iff.1 hget)

/-- Certifying "no node transitively depends on `i`" by running the code's
own reachability check from every node (usable by `decide`). -/
theorem nobody_reaches_of_checks {T : Type} {g : Graph T} {i : Nat}
    (h : ∀ z ∈ List.range g.nodes.length,
      dtde g g.nodes.length (depsOf g z) i = some false) :
    ∀ z, ¬ DReach g i (depsOf g z) := by
  intro z hreach
  by_cases hz : z < g.nodes.length
  · exact dtde_complete hreach _ (h z (List.mem_range.2 hz))
  · rw [depsOf_ge (Nat.le_of_not_lt hz)] at hreach
    exact dreach_nil g i hreach

theorem sink_pair_before {T : Type} {g : Graph T} {fuel : Nat} {X Y : Nat}
    {L : List Nat} (hXY : X < Y) (hYn : Y < g.nodes.length)
    (hnoY : ∀ z, ¬ DReach g Y (depsOf g z))
    (hcalc : calculate_order_indices g fuel = some L) :
    BeforeIn X Y L := by
  obtain ⟨rest, hsplit, _⟩ := range_split g.nodes.length Y hYn
  simp only [calculate_order_indices] at hcalc
  rw [hsplit, calcLoop_append] at hcalc
  cases hM : calcLoop g fuel (List.range Y) [] with
  | none => rw [hM] at hcalc; simp at hcalc
  | some M =>
    rw [hM] at hcalc
    simp only [calcLoop] at hcalc
    cases hf : find_insert_index g fuel M Y with
    | none => rw [hf] at hcalc; simp at hcalc
    | some j =>
      rw [hf] at hcalc
      have hj : j = M.length := find_insert_index_sink hnoY M fuel j hf
      subst hj
      have hcalc : calcLoop g fuel rest (insertAt M M.length Y) = some L := hcalc
      rw [insertAt_length_eq_concat] at hcalc
      have hXM : X ∈ M := by
        have hperm := calcLoop_perm g fuel _ _ _ hM
        exact hperm.mem_iff.2 (by simpa using List.mem_range.2 hXY)
      obtain ⟨p, hp⟩ := List.mem_iff_get.1 hXM
      have hbefore : BeforeIn X Y (M ++ [Y]) := by
        refine ⟨p, M.length, p.isLt, ?_, ?_⟩
        · rw [List.get?_append p.isLt, List.get?_eq_get p.isLt]
          exact congrArg some hp
        · exact List.get?_concat_length M Y
      exact calcLoop_preserves_before g fuel rest _ L hcalc hbefore

/-- C7 amended: among two distinct nodes neither of which any node
transitively depends on (in particular they are dependency-unrelated),
the output of `calculate_order_indices` lists one before the other exactly
when it was inserted first.  (The unrestricted claim — for arbitrary
dependency-unrelated pairs — is refuted by
a node being pulled forward past unrelated nodes when a placed node
depends on it.) -/
theorem insertion_order_preserved_for_sinks {T : Type} (g : Graph T)
    (fuel X Y : Nat) (L : List Nat)
    (hXn : X < g.nodes.length) (hYn : Y < g.nodes.length) (hne : X ≠ Y)
    (hnoX : ∀ z, ¬ DReach g X (depsOf g z))
    (hnoY : ∀ z, ¬ DReach g Y (depsOf g z))
    (hcalc : calculate_order_indices g fuel = some L) :
    BeforeIn X Y L ↔ X < Y := by
  constructor
  · intro hb
    by_contra hc
    have hYX : Y < X := by omega
    have hb2 : BeforeIn Y X L := sink_pair_before hYX hXn hnoX hcalc
    have hnd : L.Nodup := by
      have hperm : L.Perm (List.range g.nodes.length) := by
        simpa using calcLoop_perm g fuel _ _ _ hcalc
      exact hperm.nodup_iff.2 (List.nodup_range _)
    obtain ⟨p, q, hpq, hpa, hqb⟩ := hb
    obtain ⟨p2, q2, hpq2, hpa2, hqb2⟩ := hb2
    have h1 : q2 = p := nodup_get?_inj hnd hqb2 hpa
    have h2 : p2 = q := nodup_get?_inj hnd hpa2 hqb
    omega
  · intro h
    exact sink_pair_before h hYn hnoY hcalc

/-- C7 amended-claim witness: on `tieBreakGraph`, nodes D (0) and X (1) are
both depended on by no node; D precedes X in the computed order `[2, 0, 1]`
exactly because D was inserted first. -/
theorem insertion_order_preserved_on_test :
    BeforeIn 0 1 [2, 0, 1] ↔ (0 : Nat) < 1 :=
  insertion_order_preserved_for_sinks tieBreakGraph 3 0 1 [2, 0, 1]
    (by decide) (by decide) (by decide)
    (nobody_reaches_of_checks (by decide)) (nobody_reaches_of_checks (by decide))
    (by decide)

/-! ## Value model (`src/main.rs`) -/

/-- macroquad `Color`: four `f32` channels (exact-rational carrier). -/
structure MColor where
  r : Rat
  g : Rat
  b : Rat
  a : Rat
deriving Repr, DecidableEq

/-- `InputValue` from `main.rs`: the tagged union of values that flow
between ports. -/
inductive InputValue
  | Number (x : Rat)
  | Point (p : Rat × Rat)
  | Color (c : MColor)
  | Selection (s : Nat × List String)
  | ListNumbers (l : List Rat)
  | ListPoints (l : List (Rat × Rat))
deriving Repr, DecidableEq

/-- `as_f32`: the matching branch returns `*x as f32` (an exact cast under
the rational carrier); otherwise the mismatch is logged and `0.0` returned. -/
def InputValue.as_f32 : InputValue → Rat
  | .Number x => x
  | _ => 0

def InputValue.as_f64 : InputValue → Rat
  | .Number x => x
  | _ => 0

def InputValue.as_point : InputValue → Rat × Rat
  | .Point p => p
  | _ => (0, 0)

def InputValue.as_list_points : InputValue → List (Rat × Rat)
  | .ListPoints l => l
  | _ => []

def InputValue.as_color : InputValue → MColor
  | .Color c => c
  | _ => ⟨0, 0, 0, 0⟩

/-- `as_str`: on a `Selection` the Rust code evaluates `options[*i]`, which
panics when `i` is out of range — modelled by the `none` result; every
other variant logs the mismatch and returns the empty string. -/
def InputValue.as_str : InputValue → Option String
  | .Selection s => s.2.get? s.1
  | _ => some ""

/-- C8 counterexample: `as_str` applied to a `Selection` whose index is out
of range (here index 0 of an empty options list) aborts — `options[*i]`
panics — so the accessors do not degrade gracefully on *every* input. -/
theorem as_str_panics_on_empty_selection :
    InputValue.as_str (InputValue.Selection (0, [])) = none := rfl

/-- C8 amended: every accessor returns the stored value on a tag match and
a variant-appropriate zero value (`0`, `(0,0)`, transparent black, empty
list, empty string) on a mismatch, never failing — with the sole exception
of `as_str` on a `Selection` whose stored index is out of range of its
options list, which panics; an in-range `Selection` yields its selected
string. -/
theorem accessor_soft_fail (v : InputValue) :
    (∀ x, v = .Number x → v.as_f32 = x ∧ v.as_f64 = x) ∧
    ((∀ x, v ≠ .Number x) → v.as_f32 = 0 ∧ v.as_f64 = 0) ∧
    (∀ p, v = .Point p → v.as_point = p) ∧
    ((∀ p, v ≠ .Point p) → v.as_point = (0, 0)) ∧
    (∀ c, v = .Color c → v.as_color = c) ∧
    ((∀ c, v ≠ .Color c) → v.as_color = ⟨0, 0, 0, 0⟩) ∧
    (∀ l, v = .ListPoints l → v.as_list_points = l) ∧
    ((∀ l, v ≠ .ListPoints l) → v.as_list_points = []) ∧
    (∀ i opts, v = .Selection (i, opts) → v.as_str = opts.get? i) ∧
    ((∀ s, v ≠ .Selection s) → v.as_str = some "") ∧
    (v.as_str = none ↔ ∃ i opts, v = .Selection (i, opts) ∧ opts.length ≤ i) := by
  cases v <;>
    refine ⟨?_, ?_, ?_, ?_, ?_, ?_, ?_, ?_, ?_, ?_, ?_⟩ <;>
    simp [InputValue.as_f32, InputValue.as_f64, InputValue.as_point,
      InputValue.as_color, InputValue.as_list_points, InputValue.as_str,
      List.get?_eq_none]
  case Selection.refine_9 =>
    rintro i opts rfl
    rfl
  case Selection.refine_11 =>
    rename_i s
    obtain ⟨i, opts⟩ := s
    constructor
    · intro h; exact ⟨i, opts, rfl, h⟩
    · rintro ⟨i', opts', heq, hle⟩
      cases heq
      exact hle

/-- C8 amended-claim witness: the accessor contract instantiated on a
matching number, a mismatched point read, and an in-range selection. -/
theorem accessor_soft_fail_on_samples :
    (InputValue.Number 3).as_f32 = 3 ∧ (InputValue.Number 3).as_f64 = 3 ∧
    (InputValue.Number 3).as_point = (0, 0) ∧
    (InputValue.Selection (1, ["a", "b"])).as_str = ["a", "b"].get? 1 := by
  refine ⟨((accessor_soft_fail (InputValue.Number 3)).1 3 rfl).1,
    ((accessor_soft_fail (InputValue.Number 3)).1 3 rfl).2,
    (accessor_soft_fail (InputValue.Number 3)).2.2.2.1 ?_,
    (accessor_soft_fail (InputValue.Selection (1, ["a", "b"]))).2.2.2.2.2.2.2.2.1
      1 ["a", "b"] rfl⟩
  intro p h
  cases h

/-! ## Node/port model and evaluation engine (`src/draw.rs`) -/

/-- `struct Id(usize)` from `draw.rs` (named `PortId` here only because
`Id` is taken by the Lean prelude). -/
structure PortId where
  val : Nat
deriving Repr, DecidableEq

/-- Rust's derived `Debug` for `Id` renders as `Id(n)`. -/
def PortId.debugStr (i : PortId) : String := "Id(" ++ toString i.val ++ ")"

/-- Association-list embedding of `HashMap`: lookup of the first (unique)
binding of a key. -/
def mlookup {α : Type} [DecidableEq α] {β : Type}
    (m : List (α × β)) (k : α) : Option β :=
  (m.find? (fun p => decide (p.1 = k))).map (fun p => p.2)

/-- `HashMap::insert`: replace the binding if present, else add one. -/
def minsert {α : Type} [DecidableEq α] {β : Type} :
    List (α × β) → α → β → List (α × β)
  | [], k, v => [(k, v)]
  | (k', v') :: rest, k, v =>
    if k' = k then (k, v) :: rest else (k', v') :: minsert rest k v

/-- `OutputResult` from `draw.rs`. -/
inductive OutputResult
  | SingleValue (v : InputValue)
  | Iteration (vs : List InputValue)
deriving Repr, DecidableEq

/-- `InputResult` from `draw.rs` (the borrowed/owned distinction of the
Rust references carries no semantic content here but is kept for shape). -/
inductive InputResult
  | SingleValue (v : InputValue)
  | SingleValueOwned (v : InputValue)
  | Iteration (vs : List InputValue)
deriving Repr, DecidableEq

inductive ConnectionType
  | Inputs
  | Outputs
deriving Repr, DecidableEq

/-- `BlockConnectionNode` (a port).  The transient UI flags
`is_being_hovered` / `is_dragging_line` never feed the embedded operations
and are omitted. -/
structure BlockConnectionNode where
  id : PortId
  parent_id : PortId
  name : String
  value : InputValue
  connection_type : ConnectionType
deriving Repr, DecidableEq

/-- `DraggableBlock`.  Drawing-only fields (`color`, `width`,
`name_y_offset`, `being_dragged_from`) are omitted; `x`/`y` remain because
port hit-testing positions derive from them.  The per-tick evaluation
context (`&mut BlockRunContext`: screen size, time percentage, seeded rng)
is an opaque state `Ctx` threaded through `run_fn`. -/
structure DraggableBlock (Ctx : Type) where
  id : PortId
  name : String
  x : Rat
  y : Rat
  flatten_inputs : Bool
  inputs : List BlockConnectionNode
  outputs : List BlockConnectionNode
  run_fn : List InputValue → Ctx → Option (List OutputResult) × Ctx

/-- The evaluation/connection state of `BlockContext`. -/
structure BlockContext (Ctx : Type) where
  currently_dragging : Option Nat
  blocks : List (Option (DraggableBlock Ctx))
  connections : List ((PortId × PortId) × ((Rat × Rat) × (Rat × Rat)))
  input_output : List (PortId × PortId)
  inputs : List (PortId × PortId)
  graph : Graph PortId
  graph_order : List Nat
  block_ids : List (PortId × Nat)

/-- The iteration-length-mismatch error string of `BlockContext::run`. -/
def lengthMismatchMsg (blockId pastId : PortId) (pastLen : Nat)
    (inputId : PortId) (len : Nat) : String :=
  "Block " ++ toString blockId.val ++
    " depends on multiple iterations whose lengths dont match. Id(" ++
    toString pastId.val ++ ") " ++ toString pastLen ++ " != Id(" ++
    toString inputId.val ++ ") " ++ toString len

/-- The dangling-dependency error string of `BlockContext::run`. -/
def missingOutputMsg (blockId outputId : PortId) : String :=
  "My block " ++ blockId.debugStr ++ " depends on output node " ++
    outputId.debugStr ++
    ", but failed to find a value from the previous output map"

/-- `todo!()` panics with this message. -/
def flattenTodoMsg : String := "not yet implemented"

/-- Resolution of one input port inside the gathering loop of
`BlockContext::run` (draw.rs 257–292): a connected port reads the upstream
output's prior result from the working map; an unconnected port supplies
its stored default value. -/
def portResolution (input_output : List (PortId × PortId))
    (prev : List (PortId × OutputResult)) (blockId : PortId)
    (p : BlockConnectionNode) : Except String InputResult :=
  match mlookup input_output p.id with
  | some output_id =>
    match mlookup prev output_id with
    | some (OutputResult.SingleValue v) => .ok (InputResult.SingleValue v)
    | some (OutputResult.Iteration v) => .ok (InputResult.Iteration v)
    | none => .error (missingOutputMsg blockId output_id)
  | none => .ok (InputResult.SingleValue p.value)

/-- The input-gathering loop of `BlockContext::run`, threading the
`has_iteration` bookkeeping and failing at the first length mismatch or
missing upstream value. -/
def gatherInputs (input_output : List (PortId × PortId))
    (prev : List (PortId × OutputResult)) (blockId : PortId) :
    List BlockConnectionNode → Option (PortId × Nat) →
    Except String (List InputResult × Option (PortId × Nat))
  | [], hi => .ok ([], hi)
  | p :: rest, hi =>
    match portResolution input_output prev blockId p with
    | .error e => .error e
    | .ok (InputResult.Iteration v) =>
      match hi with
      | some (past_id, past_v) =>
        if v.length ≠ past_v then
          .error (lengthMismatchMsg blockId past_id past_v p.id v.length)
        else
          match gatherInputs input_output prev blockId rest
              (some (p.id, v.length)) with
          | .error e => .error e
          | .ok (l, hf) => .ok (InputResult.Iteration v :: l, hf)
      | none =>
        match gatherInputs input_output prev blockId rest
            (some (p.id, v.length)) with
        | .error e => .error e
        | .ok (l, hf) => .ok (InputResult.Iteration v :: l, hf)
    | .ok x =>
      match gatherInputs input_output prev blockId rest hi with
      | .error e => .error e
      | .ok (l, hf) => .ok (x :: l, hf)

/-- Pure per-port resolution of a whole input list (no iteration
bookkeeping); the declarative counterpart of `gatherInputs` used to state
theorems. -/
def resolveAll (input_output : List (PortId × PortId))
    (prev : List (PortId × OutputResult)) (blockId : PortId) :
    List BlockConnectionNode → Except String (List InputResult)
  | [] => .ok []
  | p :: rest =>
    match portResolution input_output prev blockId p with
    | .error e => .error e
    | .ok r =>
      match resolveAll input_output prev blockId rest with
      | .error e => .error e
      | .ok l => .ok (r :: l)

/-- The flatten step (draw.rs 297–338): every `Iteration` input collapses
to one aggregated list value; `todo!()` on non-flattenable element types
panics. -/
def flattenOne : InputResult → Except String InputResult
  | InputResult.Iteration x =>
    match x with
    | [] => .ok (InputResult.SingleValueOwned (InputValue.ListNumbers []))
    | first :: _ =>
      match first with
      | InputValue.Number _ =>
        .ok (InputResult.SingleValueOwned
          (InputValue.ListNumbers (x.map InputValue.as_f64)))
      | InputValue.Point _ =>
        .ok (InputResult.SingleValueOwned
          (InputValue.ListPoints (x.map InputValue.as_point)))
      | _ => .error flattenTodoMsg
  | x => .ok x

def flattenAll : List InputResult → Except String (List InputResult)
  | [] => .ok []
  | r :: rest =>
    match flattenOne r with
    | .error e => .error e
    | .ok r' =>
      match flattenAll rest with
      | .error e => .error e
      | .ok l => .ok (r' :: l)

/-- Input selection for call `i` of the fan-out loop (`&values[i]`; the
Rust indexing panics when out of range — `none` here — which the length
bookkeeping of `gatherInputs` makes unreachable). -/
def selectInput (i : Nat) : InputResult → Option InputValue
  | InputResult.SingleValue v => some v
  | InputResult.SingleValueOwned v => some v
  | InputResult.Iteration vs => vs.get? i

def selectInputs (i : Nat) : List InputResult → Option (List InputValue)
  | [] => some []
  | r :: rest =>
    match selectInput i r with
    | none => none
    | some v =>
      match selectInputs i rest with
      | none => none
      | some l => some (v :: l)

/-- Total counterpart of `selectInput` used in theorem statements (it
agrees with `selectInput` whenever the index is in range). -/
def pickAt (i : Nat) : InputResult → InputValue
  | InputResult.SingleValue v => v
  | InputResult.SingleValueOwned v => v
  | InputResult.Iteration vs => vs.getD i (InputValue.Number 0)

/-- The merge of a fresh result into an already present entry of the same
output port (draw.rs 364–389): call order is preserved. -/
def mergeOutput : OutputResult → OutputResult → OutputResult
  | OutputResult.SingleValue v, OutputResult.SingleValue w =>
    OutputResult.Iteration [v, w]
  | OutputResult.SingleValue v, OutputResult.Iteration ws =>
    OutputResult.Iteration (v :: ws)
  | OutputResult.Iteration vs, OutputResult.SingleValue w =>
    OutputResult.Iteration (vs ++ [w])
  | OutputResult.Iteration vs, OutputResult.Iteration ws =>
    OutputResult.Iteration (vs ++ ws)

/-- Storing one call result at one output port (the body of the result
loop, draw.rs 361–394). -/
def recordOne (m : List (PortId × OutputResult)) (pid : PortId)
    (r : OutputResult) : List (PortId × OutputResult) :=
  match mlookup m pid with
  | some prev => minsert m pid (mergeOutput prev r)
  | none => minsert m pid r

/-- Recording a whole call's results positionally against the declared
output ports; `block.outputs[result_index]` panics when the result vector
is longer than the declared outputs. -/
def recordResults (outputs : List BlockConnectionNode) :
    List OutputResult → Nat → List (PortId × OutputResult) →
    Except String (List (PortId × OutputResult))
  | [], _, m => .ok m
  | r :: rest, idx, m =>
    match outputs.get? idx with
    | none => .error "index out of bounds: block outputs"
    | some port => recordResults outputs rest (idx + 1) (recordOne m port.id r)

/-- The fan-out loop (draw.rs 339–396): invoke the block's function once
per iteration index, record each call's outputs, and log each call's
argument vector (the trace is pure instrumentation of the calls the Rust
code makes). -/
def callLoop {Ctx : Type} (b : DraggableBlock Ctx)
    (this_input : List InputResult) :
    Nat → Nat → Ctx → List (PortId × OutputResult) →
    Except String (List (PortId × OutputResult) × Ctx × List (List InputValue))
  | _, 0, ctx, outs => .ok (outs, ctx, [])
  | i, r + 1, ctx, outs =>
    match selectInputs i this_input with
    | none => .error "index out of bounds: iteration values"
    | some input_vec =>
      let res := b.run_fn input_vec ctx
      let step : Except String (List (PortId × OutputResult)) :=
        match res.1 with
        | none => .ok outs
        | some results => recordResults b.outputs results 0 outs
      match step with
      | .error e => .error e
      | .ok outs' =>
        match callLoop b this_input (i + 1) r res.2 outs' with
        | .error e => .error e
        | .ok (m, c, tr) => .ok (m, c, input_vec :: tr)

/-- One pass of the per-block body of `BlockContext::run` (draw.rs
242–397) for a single block: gather, optionally flatten (forcing one
iteration), fan out, merge.  Returns the updated working output map, the
threaded context, and the trace of argument vectors passed to `run_fn`. -/
def runNode {Ctx : Type} (input_output : List (PortId × PortId))
    (b : DraggableBlock Ctx) (prev : List (PortId × OutputResult))
    (ctx : Ctx) :
    Except String (List (PortId × OutputResult) × Ctx × List (List InputValue)) :=
  match gatherInputs input_output prev b.id b.inputs none with
  | .error e => .error e
  | .ok (this_input, hi) =>
    let num_iterations := (hi.getD (PortId.mk 0, 1)).2
    if b.flatten_inputs then
      match flattenAll this_input with
      | .error e => .error e
      | .ok ti => callLoop b ti 0 1 ctx prev
    else
      callLoop b this_input 0 num_iterations ctx prev

/-- `BlockContext::run`, iterating the stored topological order; the first
error aborts the rest of the pass.  Map/vector indexing that would panic in
Rust (`graph.nodes[i]`, `block_ids[&id]`, `blocks[i]`) is represented by
errors; `None` blocks are skipped.  In addition to Rust's `Result<(),
String>` the embedding returns the final working output map, the threaded
context and the per-block call traces as pure observations. -/
def runPassGo {Ctx : Type} (st : BlockContext Ctx) :
    List Nat → List (PortId × OutputResult) → Ctx →
    Except String (List (PortId × OutputResult) × Ctx ×
      List (PortId × List (List InputValue)))
  | [], prev, ctx => .ok (prev, ctx, [])
  | gi :: rest, prev, ctx =>
    match st.graph.nodes.get? gi with
    | none => .error "index out of bounds: graph nodes"
    | some node =>
      match mlookup st.block_ids node.value with
      | none => .error "no entry found for key"
      | some block_index =>
        match st.blocks.get? block_index with
        | none => .error "index out of bounds: blocks"
        | some none => runPassGo st rest prev ctx
        | some (some block) =>
          match runNode st.input_output block prev ctx with
          | .error e => .error e
          | .ok (new_prev, ctx', tr) =>
            match runPassGo st rest new_prev ctx' with
            | .error e => .error e
            | .ok (mf, ctxf, trs) => .ok (mf, ctxf, (block.id, tr) :: trs)

def BlockContext.run {Ctx : Type} (st : BlockContext Ctx) (ctx : Ctx) :
    Except String (List (PortId × OutputResult) × Ctx ×
      List (PortId × List (List InputValue))) :=
  runPassGo st st.graph_order [] ctx

/-! ### Map lemmas -/

theorem mlookup_minsert {α : Type} [DecidableEq α] {β : Type} :
    ∀ (m : List (α × β)) (k : α) (v : β), mlookup (minsert m k v) k = some v := by
  intro m k v
  induction m with
  | nil => simp [minsert, mlookup, List.find?]
  | cons p rest ih =>
    obtain ⟨k', v'⟩ := p
    by_cases hk : k' = k
    · subst hk
      simp [minsert, mlookup, List.find?]
    · simp only [minsert, if_neg hk]
      simpa [mlookup, List.find?, hk] using ih

theorem mlookup_minsert_ne {α : Type} [DecidableEq α] {β : Type} :
    ∀ (m : List (α × β)) (k k' : α) (v : β), k' ≠ k →
      mlookup (minsert m k v) k' = mlookup m k' := by
  intro m k k' v hne
  induction m with
  | nil => simp [minsert, mlookup, List.find?, Ne.symm hne]
  | cons p rest ih =>
    obtain ⟨k0, v0⟩ := p
    by_cases hk : k0 = k
    · subst hk
      simp [minsert, mlookup, List.find?, Ne.symm hne]
    · simp only [minsert, if_neg hk]
      by_cases hk0 : k0 = k'
      · subst hk0
        simp [mlookup, List.find?]
      · simpa [mlookup, List.find?, hk0] using ih

/-! ### C3: merge semantics -/

/-- A two-block demo graph: block 10 emits `Iteration [3, 7]` on its output
port 11; block 20's input port 21 is connected to it and its `run_fn`
echoes its first input, so during the pass its output port 22 is written
twice — `SingleValue 3` and then `SingleValue 7`. -/
def sourcePortOut : BlockConnectionNode :=
  { id := ⟨11⟩, parent_id := ⟨10⟩, name := "out",
    value := InputValue.Number 0, connection_type := ConnectionType.Outputs }

def echoPortIn : BlockConnectionNode :=
  { id := ⟨21⟩, parent_id := ⟨20⟩, name := "in",
    value := InputValue.Number 0, connection_type := ConnectionType.Inputs }

def echoPortOut : BlockConnectionNode :=
  { id := ⟨22⟩, parent_id := ⟨20⟩, name := "out",
    value := InputValue.Number 0, connection_type := ConnectionType.Outputs }

def sourceBlock : DraggableBlock Unit :=
  { id := ⟨10⟩, name := "Source", x := 0, y := 0, flatten_inputs := false,
    inputs := [], outputs := [sourcePortOut],
    run_fn := fun _ c =>
      (some [OutputResult.Iteration [InputValue.Number 3, InputValue.Number 7]], c) }

def echoBlock : DraggableBlock Unit :=
  { id := ⟨20⟩, name := "Echo", x := 0, y := 0, flatten_inputs := false,
    inputs := [echoPortIn], outputs := [echoPortOut],
    run_fn := fun inputs c =>
      (some [OutputResult.SingleValue (inputs.getD 0 (InputValue.Number 0))], c) }

def mergeDemoContext : BlockContext Unit :=
  { currently_dragging := none,
    blocks := [some sourceBlock, some echoBlock],
    connections := [((⟨21⟩, ⟨11⟩), ((0, 0), (0, 0)))],
    input_output := [(⟨21⟩, ⟨11⟩)],
    inputs := [(⟨21⟩, ⟨10⟩)],
    graph := { nodes :=
      [{ name := "", depends_on := [], is_dependent_of := [1], value := ⟨10⟩ },
       { name := "", depends_on := [0], is_dependent_of := [], value := ⟨20⟩ }] },
    graph_order := [0, 1],
    block_ids := [(⟨10⟩, 0), (⟨20⟩, 1)] }

/-- C3: results arriving at an already written output port merge in call
order (`recordOne` applies `mergeOutput` to the existing entry): a port
first holding `SingleValue 3` then receiving `SingleValue 7` holds
`Iteration [3, 7]`; a further `SingleValue` onto an `Iteration` appends;
two `Iteration`s concatenate.  The last conjunct runs a full
`BlockContext::run` pass in which output port 22 is written `SingleValue 3`
then `SingleValue 7` and ends the pass holding `Iteration [3, 7]`. -/
theorem merge_in_call_order :
    (∀ (m : List (PortId × OutputResult)) (pid : PortId) (prev r : OutputResult),
      mlookup m pid = some prev →
      mlookup (recordOne m pid r) pid = some (mergeOutput prev r)) ∧
    (∀ v w, mergeOutput (OutputResult.SingleValue v) (OutputResult.SingleValue w) =
      OutputResult.Iteration [v, w]) ∧
    (∀ vs w, mergeOutput (OutputResult.Iteration vs) (OutputResult.SingleValue w) =
      OutputResult.Iteration (vs ++ [w])) ∧
    (∀ vs ws, mergeOutput (OutputResult.Iteration vs) (OutputResult.Iteration ws) =
      OutputResult.Iteration (vs ++ ws)) ∧
    (∃ m c trs, BlockContext.run mergeDemoContext () = .ok (m, c, trs) ∧
      mlookup m ⟨22⟩ =
        some (OutputResult.Iteration [InputValue.Number 3, InputValue.Number 7])) := by
  refine ⟨?_, fun v w => rfl, fun vs w => rfl, fun vs ws => rfl, ?_⟩
  · intro m pid prev r hprev
    unfold recordOne
    rw [hprev]
    exact mlookup_minsert m pid (mergeOutput prev r)
  · exact ⟨[(⟨11⟩, OutputResult.Iteration [InputValue.Number 3, InputValue.Number 7]),
      (⟨22⟩, OutputResult.Iteration [InputValue.Number 3, InputValue.Number 7])], (),
      [(⟨10⟩, [[]]), (⟨20⟩, [[InputValue.Number 3], [InputValue.Number 7]])],
      rfl, rfl⟩

/-- C3 witness: the merge law applied at a concrete one-entry map. -/
theorem merge_in_call_order_on_sample :
    mlookup (recordOne [(PortId.mk 5, OutputResult.SingleValue (InputValue.Number 3))]
      (PortId.mk 5) (OutputResult.SingleValue (InputValue.Number 7))) (PortId.mk 5) =
      some (mergeOutput (OutputResult.SingleValue (InputValue.Number 3))
        (OutputResult.SingleValue (InputValue.Number 7))) :=
  merge_in_call_order.1 _ _ _ _ (by decide)

/-! ### C2: iteration length bookkeeping -/

theorem gather_prefix_error (io : List (PortId × PortId))
    (prev : List (PortId × OutputResult)) (bid : PortId) {e : String} :
    ∀ (l rest : List BlockConnectionNode) (hi : Option (PortId × Nat)),
      (∀ p ∈ l, ∃ v, portResolution io prev bid p =
        .ok (InputResult.SingleValue v)) →
      gatherInputs io prev bid rest hi = .error e →
      gatherInputs io prev bid (l ++ rest) hi = .error e := by
  intro l
  induction l with
  | nil => intro rest hi _ h; exact h
  | cons p l' ih =>
    intro rest hi hsingle herr
    obtain ⟨v, hv⟩ := hsingle p (List.mem_cons_self p l')
    have htail : ∀ q ∈ l', ∃ w, portResolution io prev bid q =
        .ok (InputResult.SingleValue w) :=
      fun q hq => hsingle q (List.mem_cons_of_mem p hq)
    show gatherInputs io prev bid (p :: (l' ++ rest)) hi = .error e
    simp only [gatherInputs, hv]
    rw [ih rest hi htail herr]

theorem gather_of_resolve (io : List (PortId × PortId))
    (prev : List (PortId × OutputResult)) (bid : PortId) {N : Nat} :
    ∀ (l : List BlockConnectionNode) (ri : List InputResult)
      (hi : Option (PortId × Nat)),
      resolveAll io prev bid l = .ok ri →
      (∀ r ∈ ri, ∀ vs, r = InputResult.Iteration vs → vs.length = N) →
      ((hi = none ∧ ∃ r ∈ ri, ∃ vs, r = InputResult.Iteration vs) ∨
        (∃ q, hi = some (q, N))) →
      ∃ pid, gatherInputs io prev bid l hi = .ok (ri, some (pid, N)) := by
  intro l
  induction l with
  | nil =>
    intro ri hi hres hN hdisj
    simp only [resolveAll, Except.ok.injEq] at hres
    subst hres
    rcases hdisj with ⟨_, r, hr, _⟩ | ⟨q, hq⟩
    · exact absurd hr (List.not_mem_nil r)
    · exact ⟨q, by rw [hq]; rfl⟩
  | cons p rest ih =>
    intro ri hi hres hN hdisj
    simp only [resolveAll] at hres
    cases hr : portResolution io prev bid p with
    | error e => rw [hr] at hres; simp at hres
    | ok r =>
      rw [hr] at hres
      cases hrest : resolveAll io prev bid rest with
      | error e => rw [hrest] at hres; simp at hres
      | ok l' =>
        rw [hrest] at hres
        simp only [Except.ok.injEq] at hres
        subst hres
        have hN' : ∀ r' ∈ l', ∀ vs, r' = InputResult.Iteration vs →
            vs.length = N :=
          fun r' hr' => hN r' (List.mem_cons_of_mem r hr')
        cases r with
        | Iteration vs =>
          have hvs : vs.length = N := hN _ (List.mem_cons_self _ _) vs rfl
          cases hi with
          | none =>
            obtain ⟨pid, hg⟩ := ih l' (some (p.id, vs.length)) hrest hN'
              (Or.inr ⟨p.id, by rw [hvs]⟩)
            refine ⟨pid, ?_⟩
            simp only [gatherInputs, hr, hg]
          | some qn =>
            obtain ⟨q', hq'⟩ : ∃ q', qn = (q', N) := by
              rcases hdisj with ⟨hnone, _⟩ | ⟨q, hq⟩
              · cases hnone
              · exact ⟨q, Option.some_inj.1 hq⟩
            subst hq'
            obtain ⟨pid, hg⟩ := ih l' (some (p.id, vs.length)) hrest hN'
              (Or.inr ⟨p.id, by rw [hvs]⟩)
            refine ⟨pid, ?_⟩
            rw [← hvs]
            simp only [gatherInputs, hr]
            rw [if_neg (by omega), hg, hvs]
        | SingleValue v =>
          have hdisj' : (hi = none ∧ ∃ r' ∈ l', ∃ vs,
              r' = InputResult.Iteration vs) ∨ (∃ q, hi = some (q, N)) := by
            rcases hdisj with ⟨hnone, r', hr', vs, hiter⟩ | h
            · cases List.mem_cons.1 hr' with
              | inl heq => rw [heq] at hiter; cases hiter
              | inr hm => exact Or.inl ⟨hnone, r', hm, vs, hiter⟩
            · exact Or.inr h
          obtain ⟨pid, hg⟩ := ih l' hi hrest hN' hdisj'
          refine ⟨pid, ?_⟩
          simp only [gatherInputs, hr, hg]
        | SingleValueOwned v =>
          have hdisj' : (hi = none ∧ ∃ r' ∈ l', ∃ vs,
              r' = InputResult.Iteration vs) ∨ (∃ q, hi = some (q, N)) := by
            rcases hdisj with ⟨hnone, r', hr', vs, hiter⟩ | h
            · cases List.mem_cons.1 hr' with
              | inl heq => rw [heq] at hiter; cases hiter
              | inr hm => exact Or.inl ⟨hnone, r', hm, vs, hiter⟩
            · exact Or.inr h
          obtain ⟨pid, hg⟩ := ih l' hi hrest hN' hdisj'
          refine ⟨pid, ?_⟩
          simp only [gatherInputs, hr, hg]

theorem selectInputs_of_lenN {N : Nat} :
    ∀ (ri : List InputResult),
      (∀ r ∈ ri, ∀ vs, r = InputResult.Iteration vs → vs.length = N) →
      ∀ i, i < N → selectInputs i ri = some (ri.map (pickAt i)) := by
  intro ri
  induction ri with
  | nil => intro _ i _; rfl
  | cons r rest ih =>
    intro hN i hiN
    have htail := fun r' hr' => hN r' (List.mem_cons_of_mem r hr')
    cases r with
    | SingleValue v => simp only [selectInputs, selectInput, List.map,
        pickAt, ih htail i hiN]
    | SingleValueOwned v => simp only [selectInputs, selectInput, List.map,
        pickAt, ih htail i hiN]
    | Iteration vs =>
      have hvs : vs.length = N := hN _ (List.mem_cons_self _ _) vs rfl
      have hlt : i < vs.length := by omega
      have h1 : vs.get? i = some (vs.get ⟨i, hlt⟩) := List.get?_eq_get hlt
      have h2 : vs.getD i (InputValue.Number 0) = vs.get ⟨i, hlt⟩ := by
        rw [List.getD_eq_get?, h1]; rfl
      simp only [selectInputs, selectInput, h1, List.map, pickAt, h2,
        ih htail i hiN]

theorem recordResults_ok (outputs : List BlockConnectionNode) :
    ∀ (results : List OutputResult) (idx : Nat)
      (m : List (PortId × OutputResult)),
      idx + results.length ≤ outputs.length →
      ∃ m', recordResults outputs results idx m = .ok m' := by
  intro results
  induction results with
  | nil => exact fun idx m _ => ⟨m, rfl⟩
  | cons r rest ih =>
    intro idx m hlen
    have hidx : idx < outputs.length := by
      have := hlen
      simp only [List.length_cons] at this
      omega
    have hport : outputs.get? idx = some (outputs.get ⟨idx, hidx⟩) :=
      List.get?_eq_get hidx
    simp only [recordResults, hport]
    apply ih (idx + 1)
    simp only [List.length_cons] at hlen
    omega

theorem callLoop_succ_none {Ctx : Type} (b : DraggableBlock Ctx)
    (ri : List InputResult) (i r : Nat) (ctx : Ctx)
    (outs : List (PortId × OutputResult)) (vec : List InputValue)
    (hsel : selectInputs i ri = some vec)
    (hres : (b.run_fn vec ctx).1 = none) :
    callLoop b ri i (r + 1) ctx outs =
      match callLoop b ri (i + 1) r (b.run_fn vec ctx).2 outs with
      | .error e => .error e
      | .ok (m, c, tr) => .ok (m, c, vec :: tr) := by
  simp only [callLoop, hsel]
  rw [hres]

theorem callLoop_succ_some {Ctx : Type} (b : DraggableBlock Ctx)
    (ri : List InputResult) (i r : Nat) (ctx : Ctx)
    (outs outs' : List (PortId × OutputResult)) (vec : List InputValue)
    (results : List OutputResult)
    (hsel : selectInputs i ri = some vec)
    (hres : (b.run_fn vec ctx).1 = some results)
    (hrec : recordResults b.outputs results 0 outs = .ok outs') :
    callLoop b ri i (r + 1) ctx outs =
      match callLoop b ri (i + 1) r (b.run_fn vec ctx).2 outs' with
      | .error e => .error e
      | .ok (m, c, tr) => .ok (m, c, vec :: tr) := by
  simp only [callLoop, hsel]
  rw [hres]
  have hrec' : (match some results with
    | none => Except.ok outs
    | some results => recordResults b.outputs results 0 outs) =
      Except.ok outs' := hrec
  rw [hrec']

theorem callLoop_ok {Ctx : Type} (b : DraggableBlock Ctx) {N : Nat}
    (ri : List InputResult)
    (hsel : ∀ i, i < N → selectInputs i ri = some (ri.map (pickAt i)))
    (hwell : ∀ inputs c results, (b.run_fn inputs c).1 = some results →
      results.length ≤ b.outputs.length) :
    ∀ (r i : Nat) (ctx : Ctx) (outs : List (PortId × OutputResult)),
      i + r = N →
      ∃ m c, callLoop b ri i r ctx outs =
        .ok (m, c, (List.range' i r).map (fun k => ri.map (pickAt k))) := by
  intro r
  induction r with
  | zero => intro i ctx outs _; exact ⟨outs, ctx, rfl⟩
  | succ r' ih =>
    intro i ctx outs hiN
    have hi : i < N := by omega
    cases hres : (b.run_fn (ri.map (pickAt i)) ctx).1 with
    | none =>
      obtain ⟨m, c, hloop⟩ :=
        ih (i + 1) (b.run_fn (ri.map (pickAt i)) ctx).2 outs (by omega)
      refine ⟨m, c, ?_⟩
      rw [callLoop_succ_none b ri i r' ctx outs _ (hsel i hi) hres, hloop,
        List.range'_succ]
      rfl
    | some results =>
      obtain ⟨outs', houts'⟩ := recordResults_ok b.outputs results 0 outs
        (by simpa using hwell _ _ _ hres)
      obtain ⟨m, c, hloop⟩ :=
        ih (i + 1) (b.run_fn (ri.map (pickAt i)) ctx).2 outs' (by omega)
      refine ⟨m, c, ?_⟩
      rw [callLoop_succ_some b ri i r' ctx outs outs' _ results (hsel i hi)
        hres houts', hloop, List.range'_succ]
      rfl

/-- C2: during an evaluation pass, (1) a node two of whose connected inputs
resolve to `Iteration`s of different lengths (every other input resolving
to a single value) makes `run` fail with the error naming both input ports
and both lengths; (2) a node all of whose `Iteration`-resolving inputs
(at least one) share length `N` — and which does not flatten — evaluates
successfully, its `run_fn` invoked exactly `N` times, the `i`-th call
receiving the `i`-th element of each iterated input and the shared value of
each single-valued input; (3) a per-node error aborts the whole pass:
`run` returns it immediately. -/
theorem run_iteration_length_contract :
    (∀ (Ctx : Type) (io : List (PortId × PortId)) (b : DraggableBlock Ctx)
      (prev : List (PortId × OutputResult)) (ctx : Ctx)
      (l1 l2 l3 : List BlockConnectionNode) (p1 p2 : BlockConnectionNode)
      (v1 v2 : List InputValue),
      b.inputs = l1 ++ p1 :: (l2 ++ p2 :: l3) →
      (∀ p ∈ l1 ++ l2, ∃ v, portResolution io prev b.id p =
        .ok (InputResult.SingleValue v)) →
      portResolution io prev b.id p1 = .ok (InputResult.Iteration v1) →
      portResolution io prev b.id p2 = .ok (InputResult.Iteration v2) →
      v1.length ≠ v2.length →
      runNode io b prev ctx =
        .error (lengthMismatchMsg b.id p1.id v1.length p2.id v2.length)) ∧
    (∀ (Ctx : Type) (io : List (PortId × PortId)) (b : DraggableBlock Ctx)
      (prev : List (PortId × OutputResult)) (ctx : Ctx)
      (ri : List InputResult) (N : Nat),
      b.flatten_inputs = false →
      resolveAll io prev b.id b.inputs = .ok ri →
      (∀ r ∈ ri, ∀ vs, r = InputResult.Iteration vs → vs.length = N) →
      (∃ r ∈ ri, ∃ vs, r = InputResult.Iteration vs) →
      (∀ inputs c results, (b.run_fn inputs c).1 = some results →
        results.length ≤ b.outputs.length) →
      ∃ m c, runNode io b prev ctx =
        .ok (m, c, (List.range N).map (fun i => ri.map (pickAt i))) ∧
        ((List.range N).map (fun i => ri.map (pickAt i))).length = N) ∧
    (∀ (Ctx : Type) (st : BlockContext Ctx) (gi : Nat) (rest : List Nat)
      (prev : List (PortId × OutputResult)) (ctx : Ctx)
      (node : DepNode PortId) (bi : Nat) (b : DraggableBlock Ctx) (e : String),
      st.graph.nodes.get? gi = some node →
      mlookup st.block_ids node.value = some bi →
      st.blocks.get? bi = some (some b) →
      runNode st.input_output b prev ctx = .error e →
      runPassGo st (gi :: rest) prev ctx = .error e) := by
  refine ⟨?_, ?_, ?_⟩
  · intro Ctx io b prev ctx l1 l2 l3 p1 p2 v1 v2 hinp hsingle hp1 hp2 hne
    have h2 : gatherInputs io prev b.id (p2 :: l3)
        (some (p1.id, v1.length)) =
        .error (lengthMismatchMsg b.id p1.id v1.length p2.id v2.length) := by
      simp only [gatherInputs, hp2]
      rw [if_pos (fun h => hne h.symm)]
    have h2' : gatherInputs io prev b.id (l2 ++ p2 :: l3)
        (some (p1.id, v1.length)) =
        .error (lengthMismatchMsg b.id p1.id v1.length p2.id v2.length) :=
      gather_prefix_error io prev b.id l2 _ _
        (fun p hp => hsingle p (List.mem_append.2 (Or.inr hp))) h2
    have h1 : gatherInputs io prev b.id (p1 :: (l2 ++ p2 :: l3)) none =
        .error (lengthMismatchMsg b.id p1.id v1.length p2.id v2.length) := by
      simp only [gatherInputs, hp1, h2']
    have h0 : gatherInputs io prev b.id b.inputs none =
        .error (lengthMismatchMsg b.id p1.id v1.length p2.id v2.length) := by
      rw [hinp]
      exact gather_prefix_error io prev b.id l1 _ _
        (fun p hp => hsingle p (List.mem_append.2 (Or.inl hp))) h1
    unfold runNode
    rw [h0]
  · intro Ctx io b prev ctx ri N hfl hres hN hex hwell
    obtain ⟨pid, hg⟩ := gather_of_resolve io prev b.id b.inputs ri none hres
      hN (Or.inl ⟨rfl, hex⟩)
    obtain ⟨m, c, hloop⟩ := callLoop_ok b ri
      (selectInputs_of_lenN ri hN) hwell N 0 ctx prev (by omega)
    refine ⟨m, c, ?_, by simp⟩
    unfold runNode
    rw [hg, hfl]
    simp only [Bool.false_eq_true, if_false, Option.getD_some]
    rw [List.range_eq_range']
    exact hloop
  · intro Ctx st gi rest prev ctx node bi b e hnode hbi hb hrun
    simp only [runPassGo, hnode, hbi, hb, hrun]

/-- Two input ports whose upstream iterations have lengths 3 and 4. -/
def misPortA : BlockConnectionNode :=
  { id := ⟨31⟩, parent_id := ⟨30⟩, name := "a",
    value := InputValue.Number 0, connection_type := ConnectionType.Inputs }

def misPortB : BlockConnectionNode :=
  { id := ⟨32⟩, parent_id := ⟨30⟩, name := "b",
    value := InputValue.Number 0, connection_type := ConnectionType.Inputs }

def misBlock : DraggableBlock Unit :=
  { id := ⟨30⟩, name := "Mismatch", x := 0, y := 0, flatten_inputs := false,
    inputs := [misPortA, misPortB], outputs := [],
    run_fn := fun _ c => (none, c) }

def misIO : List (PortId × PortId) := [(⟨31⟩, ⟨41⟩), (⟨32⟩, ⟨42⟩)]

def misPrev : List (PortId × OutputResult) :=
  [(⟨41⟩, OutputResult.Iteration
      [InputValue.Number 1, InputValue.Number 2, InputValue.Number 3]),
   (⟨42⟩, OutputResult.Iteration
      [InputValue.Number 1, InputValue.Number 2,
       InputValue.Number 3, InputValue.Number 4])]

/-- A block with one input fed by an iteration of length 2. -/
def okPort : BlockConnectionNode :=
  { id := ⟨51⟩, parent_id := ⟨50⟩, name := "in",
    value := InputValue.Number 0, connection_type := ConnectionType.Inputs }

def okBlock : DraggableBlock Unit :=
  { id := ⟨50⟩, name := "Consumer", x := 0, y := 0, flatten_inputs := false,
    inputs := [okPort], outputs := [],
    run_fn := fun _ c => (none, c) }

def okIO : List (PortId × PortId) := [(⟨51⟩, ⟨61⟩)]

def okPrev : List (PortId × OutputResult) :=
  [(⟨61⟩, OutputResult.Iteration [InputValue.Number 5, InputValue.Number 6])]

/-- C2 witness: the contract applied to a 3-versus-4 mismatch (yielding the
exact error string) and to a shared length of 2 (two invocations receiving
elements 5 and 6). -/
theorem run_iteration_length_contract_on_samples :
    runNode misIO misBlock misPrev () =
      .error (lengthMismatchMsg ⟨30⟩ ⟨31⟩ 3 ⟨32⟩ 4) ∧
    (∃ m c, runNode okIO okBlock okPrev () =
      .ok (m, c, (List.range 2).map (fun i =>
        [InputResult.Iteration
          [InputValue.Number 5, InputValue.Number 6]].map (pickAt i))) ∧
      ((List.range 2).map (fun i =>
        [InputResult.Iteration
          [InputValue.Number 5, InputValue.Number 6]].map (pickAt i))).length = 2) := by
  constructor
  · exact run_iteration_length_contract.1 Unit misIO misBlock misPrev ()
      [] [] [] misPortA misPortB
      [InputValue.Number 1, InputValue.Number 2, InputValue.Number 3]
      [InputValue.Number 1, InputValue.Number 2,
       InputValue.Number 3, InputValue.Number 4]
      rfl (by simp) rfl rfl (by decide)
  · exact run_iteration_length_contract.2.1 Unit okIO okBlock okPrev ()
      [InputResult.Iteration [InputValue.Number 5, InputValue.Number 6]] 2
      rfl rfl
      (by
        intro r hr vs hvs
        rw [List.mem_singleton] at hr
        subst hr
        cases hvs
        rfl)
      ⟨_, List.mem_singleton.2 rfl,
        [InputValue.Number 5, InputValue.Number 6], rfl⟩
      (fun _ _ _ h => nomatch h)

/-! ### C4: flatten semantics -/

theorem flattenOne_no_iteration :
    ∀ (r r' : InputResult), flattenOne r = .ok r' →
      ∀ vs, r' ≠ InputResult.Iteration vs := by
  intro r r' hr vs
  cases r with
  | SingleValue v => cases hr; intro h; cases h
  | SingleValueOwned v => cases hr; intro h; cases h
  | Iteration x =>
    cases x with
    | nil => cases hr; intro h; cases h
    | cons first xrest =>
      cases first with
      | Number _ => cases hr; intro h; cases h
      | Point _ => cases hr; intro h; cases h
      | Color _ => cases hr
      | Selection _ => cases hr
      | ListNumbers _ => cases hr
      | ListPoints _ => cases hr

theorem flattenAll_no_iteration :
    ∀ (ri rif : List InputResult), flattenAll ri = .ok rif →
      ∀ r ∈ rif, ∀ vs, r ≠ InputResult.Iteration vs := by
  intro ri
  induction ri with
  | nil =>
    intro rif h r hr
    simp only [flattenAll, Except.ok.injEq] at h
    subst h
    exact absurd hr (List.not_mem_nil r)
  | cons x rest ih =>
    intro rif h r hr
    simp only [flattenAll] at h
    cases hx : flattenOne x with
    | error e => rw [hx] at h; simp at h
    | ok x' =>
      rw [hx] at h
      cases hrest : flattenAll rest with
      | error e => rw [hrest] at h; simp at h
      | ok l' =>
        rw [hrest] at h
        simp only [Except.ok.injEq] at h
        subst h
        cases List.mem_cons.1 hr with
        | inl heq => exact heq ▸ flattenOne_no_iteration x x' hx
        | inr hm => exact ih l' hrest r hm

theorem map_as_point_map_point (ps : List (Rat × Rat)) :
    List.map (InputValue.as_point ∘ InputValue.Point) ps = ps := by
  induction ps with
  | nil => rfl
  | cons p t ih => simp [Function.comp, InputValue.as_point, ih]

theorem map_as_f64_map_number (xs : List Rat) :
    List.map (InputValue.as_f64 ∘ InputValue.Number) xs = xs := by
  induction xs with
  | nil => rfl
  | cons x t ih => simp [Function.comp, InputValue.as_f64, ih]

/-- C4: a node with `flatten_inputs = true` whose gathered inputs flatten
successfully is invoked exactly once, the single call receiving the
flattened values; an `Iteration` of `Point`s flattens to one `ListPoints`
holding the points in original order (an `Iteration` of `Number`s likewise
to one `ListNumbers`), the iteration count being forced to 1. -/
theorem flatten_single_invocation :
    (∀ (Ctx : Type) (io : List (PortId × PortId)) (b : DraggableBlock Ctx)
      (prev : List (PortId × OutputResult)) (ctx : Ctx)
      (ri rif : List InputResult) (hi : Option (PortId × Nat)),
      b.flatten_inputs = true →
      gatherInputs io prev b.id b.inputs none = .ok (ri, hi) →
      flattenAll ri = .ok rif →
      (∀ inputs c results, (b.run_fn inputs c).1 = some results →
        results.length ≤ b.outputs.length) →
      ∃ m c, runNode io b prev ctx = .ok (m, c, [rif.map (pickAt 0)])) ∧
    (∀ ps : List (Rat × Rat), ps ≠ [] →
      flattenOne (InputResult.Iteration (ps.map InputValue.Point)) =
        .ok (InputResult.SingleValueOwned (InputValue.ListPoints ps))) ∧
    (∀ xs : List Rat, xs ≠ [] →
      flattenOne (InputResult.Iteration (xs.map InputValue.Number)) =
        .ok (InputResult.SingleValueOwned (InputValue.ListNumbers xs))) := by
  refine ⟨?_, ?_, ?_⟩
  · intro Ctx io b prev ctx ri rif hi hfl hg hflat hwell
    have hnoiter : ∀ r ∈ rif, ∀ vs, r = InputResult.Iteration vs →
        vs.length = 1 :=
      fun r hr vs heq => absurd heq (flattenAll_no_iteration ri rif hflat r hr vs)
    obtain ⟨m, c, hloop⟩ := callLoop_ok b rif
      (selectInputs_of_lenN rif hnoiter) hwell 1 0 ctx prev (by omega)
    refine ⟨m, c, ?_⟩
    unfold runNode
    rw [hg, hfl]
    simp only [if_true]
    rw [hflat]
    exact hloop
  · intro ps hps
    cases ps with
    | nil => exact absurd rfl hps
    | cons p ps' =>
      simp [flattenOne, InputValue.as_point, map_as_point_map_point]
  · intro xs hxs
    cases xs with
    | nil => exact absurd rfl hxs
    | cons x xs' =>
      simp [flattenOne, InputValue.as_f64, map_as_f64_map_number]

/-- The four demo points of the flatten scenario. -/
def fourPoints : List (Rat × Rat) := [(1, 2), (3, 4), (5, 6), (7, 8)]

def flatPort : BlockConnectionNode :=
  { id := ⟨71⟩, parent_id := ⟨70⟩, name := "pts",
    value := InputValue.ListPoints [], connection_type := ConnectionType.Inputs }

def flatBlock : DraggableBlock Unit :=
  { id := ⟨70⟩, name := "Collect", x := 0, y := 0, flatten_inputs := true,
    inputs := [flatPort], outputs := [],
    run_fn := fun _ c => (none, c) }

def flatIO : List (PortId × PortId) := [(⟨71⟩, ⟨81⟩)]

def flatPrev : List (PortId × OutputResult) :=
  [(⟨81⟩, OutputResult.Iteration (fourPoints.map InputValue.Point))]

/-- C4 witness: the flattening block fed an `Iteration` of 4 points is run
exactly once with the single `ListPoints` aggregate in original order. -/
theorem flatten_single_invocation_on_sample :
    (∃ m c, runNode flatIO flatBlock flatPrev () = .ok (m, c,
      [[InputValue.ListPoints fourPoints]])) ∧
    flattenOne (InputResult.Iteration (fourPoints.map InputValue.Point)) =
      .ok (InputResult.SingleValueOwned (InputValue.ListPoints fourPoints)) := by
  constructor
  · have h := flatten_single_invocation.1 Unit flatIO flatBlock flatPrev ()
      [InputResult.Iteration (fourPoints.map InputValue.Point)]
      [InputResult.SingleValueOwned (InputValue.ListPoints fourPoints)]
      (some (⟨71⟩, 4)) rfl rfl rfl (fun _ _ _ h => nomatch h)
    simpa using h
  · exact flatten_single_invocation.2.1 fourPoints (by decide)

/-! ### C10: empty iterations -/

/-- C10: a non-flattening node one of whose inputs resolves to an
`Iteration` of length 0 is run zero times and records nothing — the working
output map is returned unchanged — and any node whose connected input's
upstream output id is absent from the working map fails the pass with the
dangling-dependency error. -/
theorem empty_iteration_contract :
    (∀ (Ctx : Type) (io : List (PortId × PortId)) (b : DraggableBlock Ctx)
      (prev : List (PortId × OutputResult)) (ctx : Ctx)
      (ri : List InputResult) (pid : PortId),
      b.flatten_inputs = false →
      gatherInputs io prev b.id b.inputs none = .ok (ri, some (pid, 0)) →
      runNode io b prev ctx = .ok (prev, ctx, [])) ∧
    (∀ (Ctx : Type) (io : List (PortId × PortId)) (b2 : DraggableBlock Ctx)
      (prev : List (PortId × OutputResult)) (ctx : Ctx)
      (l1 l3 : List BlockConnectionNode) (p : BlockConnectionNode)
      (oid : PortId),
      b2.inputs = l1 ++ p :: l3 →
      (∀ q ∈ l1, ∃ v, portResolution io prev b2.id q =
        .ok (InputResult.SingleValue v)) →
      mlookup io p.id = some oid →
      mlookup prev oid = none →
      runNode io b2 prev ctx = .error (missingOutputMsg b2.id oid)) := by
  constructor
  · intro Ctx io b prev ctx ri pid hfl hg
    unfold runNode
    rw [hg, hfl]
    simp only [Bool.false_eq_true, if_false, Option.getD_some]
    rfl
  · intro Ctx io b2 prev ctx l1 l3 p oid hinp hsingle hio hprev
    have hp : portResolution io prev b2.id p =
        .error (missingOutputMsg b2.id oid) := by
      unfold portResolution
      rw [hio]
      have h2 : (match mlookup prev oid with
        | some (OutputResult.SingleValue v) =>
          Except.ok (InputResult.SingleValue v)
        | some (OutputResult.Iteration v) =>
          Except.ok (InputResult.Iteration v)
        | none => (Except.error (missingOutputMsg b2.id oid) :
            Except String InputResult)) =
          Except.error (missingOutputMsg b2.id oid) := by rw [hprev]
      exact h2
    have h1 : gatherInputs io prev b2.id (p :: l3) none =
        .error (missingOutputMsg b2.id oid) := by
      simp only [gatherInputs, hp]
    have h0 : gatherInputs io prev b2.id b2.inputs none =
        .error (missingOutputMsg b2.id oid) := by
      rw [hinp]
      exact gather_prefix_error io prev b2.id l1 _ _ hsingle h1
    unfold runNode
    rw [h0]

/-- A block whose only input receives an empty iteration, and a downstream
block wired to its (therefore never written) output port 96. -/
def emptyIterPort : BlockConnectionNode :=
  { id := ⟨91⟩, parent_id := ⟨90⟩, name := "in",
    value := InputValue.Number 0, connection_type := ConnectionType.Inputs }

def emptyIterOutPort : BlockConnectionNode :=
  { id := ⟨96⟩, parent_id := ⟨90⟩, name := "out",
    value := InputValue.Number 0, connection_type := ConnectionType.Outputs }

def emptyIterBlock : DraggableBlock Unit :=
  { id := ⟨90⟩, name := "Silent", x := 0, y := 0, flatten_inputs := false,
    inputs := [emptyIterPort], outputs := [emptyIterOutPort],
    run_fn := fun _ c => (some [OutputResult.SingleValue (InputValue.Number 1)], c) }

def downstreamPort : BlockConnectionNode :=
  { id := ⟨92⟩, parent_id := ⟨93⟩, name := "in",
    value := InputValue.Number 0, connection_type := ConnectionType.Inputs }

def downstreamBlock : DraggableBlock Unit :=
  { id := ⟨93⟩, name := "Starved", x := 0, y := 0, flatten_inputs := false,
    inputs := [downstreamPort], outputs := [],
    run_fn := fun _ c => (none, c) }

def emptyIterIO : List (PortId × PortId) := [(⟨91⟩, ⟨95⟩), (⟨92⟩, ⟨96⟩)]

def emptyIterPrev : List (PortId × OutputResult) :=
  [(⟨95⟩, OutputResult.Iteration [])]

/-- C10 witness: with an empty upstream iteration the silent block runs
zero times leaving the map unchanged, and the downstream block wired to
its output then fails with the dangling-dependency error. -/
theorem empty_iteration_contract_on_sample :
    runNode emptyIterIO emptyIterBlock emptyIterPrev () =
      .ok (emptyIterPrev, (), []) ∧
    runNode emptyIterIO downstreamBlock emptyIterPrev () =
      .error (missingOutputMsg ⟨93⟩ ⟨96⟩) :=
  ⟨empty_iteration_contract.1 Unit emptyIterIO emptyIterBlock emptyIterPrev ()
     [InputResult.Iteration []] ⟨91⟩ rfl rfl,
   empty_iteration_contract.2 Unit emptyIterIO downstreamBlock emptyIterPrev ()
     [] [] downstreamPort ⟨96⟩ rfl (by simp) rfl rfl⟩

/-! ### C5: the connection protocol (`can_connect`, draw.rs 494–537) -/

def CONNECTION_SIZE : Rat := 10
def CONNECTION_SPACING : Rat := 28
def BLOCK_HEIGHT : Rat := 32

/-- `mouse_within_bounds` for a port square, with the ambient mouse
position passed explicitly. -/
def mouse_within_bounds (mouse : Rat × Rat) (x y w h : Rat) : Bool :=
  decide (mouse.1 ≥ x) && decide (mouse.1 < x + w) &&
    decide (mouse.2 ≥ y) && decide (mouse.2 < y + h)

/-- The exact-tag compatibility check of `can_connect` (draw.rs 505–513). -/
def tagMatch : InputValue → InputValue → Bool
  | InputValue.Number _, InputValue.Number _ => true
  | InputValue.Point _, InputValue.Point _ => true
  | InputValue.Color _, InputValue.Color _ => true
  | InputValue.Selection _, InputValue.Selection _ => true
  | InputValue.ListNumbers _, InputValue.ListNumbers _ => true
  | InputValue.ListPoints _, InputValue.ListPoints _ => true
  | _, _ => false

/-- The port scan of `can_connect` through `iter_connections_opposite`
(draw.rs 503–518): walk the opposite-direction port list at its drawn
positions; every tag-matching port under the mouse overwrites
`found_connection`. -/
def scanPorts (mouse : Rat × Rat) (my_value : InputValue) :
    List BlockConnectionNode → Rat → Rat →
    Option (PortId × PortId × (Rat × Rat)) →
    Option (PortId × PortId × (Rat × Rat))
  | [], _, _, acc => acc
  | c :: rest, x, y, acc =>
    let acc' :=
      if tagMatch my_value c.value &&
          mouse_within_bounds mouse x y CONNECTION_SIZE CONNECTION_SIZE then
        some (c.parent_id, c.id, (x, y))
      else acc
    scanPorts mouse my_value rest (x + (CONNECTION_SIZE + CONNECTION_SPACING))
      y acc'

/-- `iter_connections_opposite` start positions: ports are drawn from
`(x, y - CONNECTION_SIZE)`, the outputs row shifted down by
`BLOCK_HEIGHT + CONNECTION_SIZE`. -/
def blockScan {Ctx : Type} (mouse : Rat × Rat) (my_type : ConnectionType)
    (my_value : InputValue) (b : DraggableBlock Ctx) :
    Option (PortId × PortId × (Rat × Rat)) :=
  match my_type with
  | ConnectionType.Outputs =>
    scanPorts mouse my_value b.inputs b.x (b.y - CONNECTION_SIZE) none
  | ConnectionType.Inputs =>
    scanPorts mouse my_value b.outputs b.x
      (b.y - CONNECTION_SIZE + BLOCK_HEIGHT + CONNECTION_SIZE) none

/-- The block loop of `can_connect`: the first live block with a hit either
aborts (input already connected — `break` before any insert) or records the
connection in the three maps and breaks. -/
def canConnectGo {Ctx : Type} (st : BlockContext Ctx) (mouse : Rat × Rat)
    (my_parent my_id : PortId) (my_type : ConnectionType)
    (my_value : InputValue) (my_pos : Rat × Rat) :
    List (Option (DraggableBlock Ctx)) → BlockContext Ctx
  | [] => st
  | none :: rest =>
    canConnectGo st mouse my_parent my_id my_type my_value my_pos rest
  | some b :: rest =>
    match blockScan mouse my_type my_value b with
    | none => canConnectGo st mouse my_parent my_id my_type my_value my_pos rest
    | some (connection_parent, cid, cpos) =>
      let ins :=
        match my_type with
        | ConnectionType.Inputs => (my_id, cid, connection_parent)
        | ConnectionType.Outputs => (cid, my_id, my_parent)
      if (mlookup st.inputs ins.1).isSome then st
      else
        { st with
          inputs := minsert st.inputs ins.1 ins.2.2,
          input_output := minsert st.input_output ins.1 ins.2.1,
          connections := minsert st.connections (my_id, cid) (my_pos, cpos) }

/-- `BlockContext::can_connect`. -/
def can_connect {Ctx : Type} (st : BlockContext Ctx) (mouse : Rat × Rat)
    (my_parent my_id : PortId) (my_type : ConnectionType)
    (my_value : InputValue) (my_pos : Rat × Rat) : BlockContext Ctx :=
  canConnectGo st mouse my_parent my_id my_type my_value my_pos st.blocks

theorem scanPorts_mem (mouse : Rat × Rat) (my_value : InputValue) :
    ∀ (ports : List BlockConnectionNode) (x y : Rat)
      (acc : Option (PortId × PortId × (Rat × Rat)))
      (res : PortId × PortId × (Rat × Rat)),
      scanPorts mouse my_value ports x y acc = some res →
      (∃ c ∈ ports, c.parent_id = res.1 ∧ c.id = res.2.1 ∧
        tagMatch my_value c.value = true) ∨ acc = some res := by
  intro ports
  induction ports with
  | nil => intro x y acc res h; exact Or.inr h
  | cons c rest ih =>
    intro x y acc res h
    simp only [scanPorts] at h
    by_cases hc : (tagMatch my_value c.value &&
        mouse_within_bounds mouse x y CONNECTION_SIZE CONNECTION_SIZE) = true
    · rw [if_pos hc] at h
      rcases ih _ _ _ _ h with ⟨c', hc', hp⟩ | hacc
      · exact Or.inl ⟨c', List.mem_cons_of_mem c hc', hp⟩
      · have heq : c.parent_id = res.1 ∧ c.id = res.2.1 := by
          have := Option.some_inj.1 hacc
          rw [← this]
          exact ⟨rfl, rfl⟩
        have hc' : tagMatch my_value c.value = true := by
          have hsplit : tagMatch my_value c.value = true ∧
              mouse_within_bounds mouse x y CONNECTION_SIZE CONNECTION_SIZE
                = true := by simpa using hc
          exact hsplit.1
        exact Or.inl ⟨c, List.mem_cons_self c rest, heq.1, heq.2, hc'⟩
    · rw [if_neg hc] at h
      rcases ih _ _ _ _ h with ⟨c', hc', hp⟩ | hacc
      · exact Or.inl ⟨c', List.mem_cons_of_mem c hc', hp⟩
      · exact Or.inr hacc

theorem canConnectGo_protocol {Ctx : Type} (st : BlockContext Ctx)
    (mouse : Rat × Rat) (my_parent my_id : PortId) (my_type : ConnectionType)
    (my_value : InputValue) (my_pos : Rat × Rat) :
    ∀ bl : List (Option (DraggableBlock Ctx)),
      canConnectGo st mouse my_parent my_id my_type my_value my_pos bl = st ∨
      ∃ bb, some bb ∈ bl ∧ ∃ c cpos,
        ((my_type = ConnectionType.Inputs ∧ c ∈ bb.outputs) ∨
         (my_type = ConnectionType.Outputs ∧ c ∈ bb.inputs)) ∧
        tagMatch my_value c.value = true ∧
        ∃ inp outp parent,
          ((my_type = ConnectionType.Inputs ∧ inp = my_id ∧ outp = c.id ∧
              parent = c.parent_id) ∨
           (my_type = ConnectionType.Outputs ∧ inp = c.id ∧ outp = my_id ∧
              parent = my_parent)) ∧
          mlookup st.inputs inp = none ∧
          canConnectGo st mouse my_parent my_id my_type my_value my_pos bl =
            { st with
              inputs := minsert st.inputs inp parent,
              input_output := minsert st.input_output inp outp,
              connections :=
                minsert st.connections (my_id, c.id) (my_pos, cpos) } := by
  intro bl
  induction bl with
  | nil => exact Or.inl rfl
  | cons ob rest ih =>
    cases ob with
    | none =>
      rcases ih with h | ⟨bb, hbb, rest'⟩
      · exact Or.inl h
      · exact Or.inr ⟨bb, List.mem_cons_of_mem none hbb, rest'⟩
    | some bb =>
      cases hscan : blockScan mouse my_type my_value bb with
      | none =>
        have heq : canConnectGo st mouse my_parent my_id my_type my_value
            my_pos (some bb :: rest) =
            canConnectGo st mouse my_parent my_id my_type my_value my_pos
              rest := by
          simp only [canConnectGo, hscan]
        rcases ih with h | ⟨bb', hbb', c, cpos, h1, h2, inp, outp, parent,
          h3, h4, h5⟩
        · exact Or.inl (heq.trans h)
        · exact Or.inr ⟨bb', List.mem_cons_of_mem (some bb) hbb', c, cpos,
            h1, h2, inp, outp, parent, h3, h4, heq.trans h5⟩
      | some res =>
        obtain ⟨connection_parent, cid, cpos⟩ := res
        have hfound : (∃ c, ((my_type = ConnectionType.Inputs ∧ c ∈ bb.outputs) ∨
            (my_type = ConnectionType.Outputs ∧ c ∈ bb.inputs)) ∧
            c.parent_id = connection_parent ∧ c.id = cid ∧
            tagMatch my_value c.value = true) := by
          cases my_type with
          | Inputs =>
            rcases scanPorts_mem mouse my_value bb.outputs _ _ none _ hscan with
              ⟨c, hc, h1, h2, h3⟩ | habs
            · exact ⟨c, Or.inl ⟨rfl, hc⟩, h1, h2, h3⟩
            · cases habs
          | Outputs =>
            rcases scanPorts_mem mouse my_value bb.inputs _ _ none _ hscan with
              ⟨c, hc, h1, h2, h3⟩ | habs
            · exact ⟨c, Or.inr ⟨rfl, hc⟩, h1, h2, h3⟩
            · cases habs
        obtain ⟨c, hcside, hcp, hcid, htag⟩ := hfound
        cases my_type with
        | Inputs =>
          by_cases hin : (mlookup st.inputs my_id).isSome
          · left
            simp only [canConnectGo, hscan]
            rw [if_pos hin]
          · right
            refine ⟨bb, List.mem_cons_self _ _, c, cpos, hcside, htag,
              my_id, c.id, c.parent_id, Or.inl ⟨rfl, rfl, rfl, rfl⟩,
              Option.not_isSome_iff_eq_none.1 hin, ?_⟩
            simp only [canConnectGo, hscan]
            rw [if_neg hin, hcp, hcid]
        | Outputs =>
          by_cases hin : (mlookup st.inputs cid).isSome
          · left
            simp only [canConnectGo, hscan]
            rw [if_pos hin]
          · right
            refine ⟨bb, List.mem_cons_self _ _, c, cpos, hcside, htag,
              c.id, my_id, my_parent, Or.inr ⟨rfl, rfl, rfl, rfl⟩, ?_, ?_⟩
            · rw [hcid]; exact Option.not_isSome_iff_eq_none.1 hin
            · simp only [canConnectGo, hscan]
              rw [if_neg hin, hcid]

/-- C5: `can_connect` either returns the state with the maps `inputs`,
`input_output` and `connections` unchanged, or records exactly one new
connection — into a tag-matching port drawn from the opposite-direction
port list of a live block, with the input side previously unconnected —
and never raises an error (it is a total function).  Existing `inputs`
bindings are never replaced, so every input port keeps at most one
incoming connection while an output port may fan out to many inputs. -/
theorem can_connect_protocol {Ctx : Type} (st : BlockContext Ctx)
    (mouse : Rat × Rat) (my_parent my_id : PortId) (my_type : ConnectionType)
    (my_value : InputValue) (my_pos : Rat × Rat) :
    (can_connect st mouse my_parent my_id my_type my_value my_pos = st ∨
      ∃ bb, some bb ∈ st.blocks ∧ ∃ c cpos,
        ((my_type = ConnectionType.Inputs ∧ c ∈ bb.outputs) ∨
         (my_type = ConnectionType.Outputs ∧ c ∈ bb.inputs)) ∧
        tagMatch my_value c.value = true ∧
        ∃ inp outp parent,
          ((my_type = ConnectionType.Inputs ∧ inp = my_id ∧ outp = c.id ∧
              parent = c.parent_id) ∨
           (my_type = ConnectionType.Outputs ∧ inp = c.id ∧ outp = my_id ∧
              parent = my_parent)) ∧
          mlookup st.inputs inp = none ∧
          can_connect st mouse my_parent my_id my_type my_value my_pos =
            { st with
              inputs := minsert st.inputs inp parent,
              input_output := minsert st.input_output inp outp,
              connections :=
                minsert st.connections (my_id, c.id) (my_pos, cpos) }) ∧
    (∀ k v, mlookup st.inputs k = some v →
      mlookup (can_connect st mouse my_parent my_id my_type my_value
        my_pos).inputs k = some v) := by
  have hmain := canConnectGo_protocol st mouse my_parent my_id my_type
    my_value my_pos st.blocks
  refine ⟨hmain, ?_⟩
  intro k v hkv
  rcases hmain with h | ⟨bb, hbb, c, cpos, h1, h2, inp, outp, parent,
    h3, h4, h5⟩
  · have heq : can_connect st mouse my_parent my_id my_type my_value
        my_pos = st := h
    rw [heq]
    exact hkv
  · have heq : can_connect st mouse my_parent my_id my_type my_value
        my_pos = { st with
          inputs := minsert st.inputs inp parent,
          input_output := minsert st.input_output inp outp,
          connections :=
            minsert st.connections (my_id, c.id) (my_pos, cpos) } := h5
    rw [heq]
    show mlookup (minsert st.inputs inp parent) k = some v
    have hk : k ≠ inp := by
      intro he
      rw [he, h4] at hkv
      cases hkv
    rw [mlookup_minsert_ne st.inputs inp k parent hk]
    exact hkv

/-- C5 witness: the protocol instantiated on the two-block demo context,
dragging from input port 21. -/
theorem can_connect_protocol_on_sample :
    (can_connect mergeDemoContext (0, 0) ⟨20⟩ ⟨21⟩ ConnectionType.Inputs
        (InputValue.Number 0) (0, 0) = mergeDemoContext ∨
      ∃ bb, some bb ∈ mergeDemoContext.blocks ∧ ∃ c cpos,
        ((ConnectionType.Inputs = ConnectionType.Inputs ∧ c ∈ bb.outputs) ∨
         (ConnectionType.Inputs = ConnectionType.Outputs ∧ c ∈ bb.inputs)) ∧
        tagMatch (InputValue.Number 0) c.value = true ∧
        ∃ inp outp parent,
          ((ConnectionType.Inputs = ConnectionType.Inputs ∧ inp = PortId.mk 21 ∧
              outp = c.id ∧ parent = c.parent_id) ∨
           (ConnectionType.Inputs = ConnectionType.Outputs ∧ inp = c.id ∧
              outp = PortId.mk 21 ∧ parent = PortId.mk 20)) ∧
          mlookup mergeDemoContext.inputs inp = none ∧
          can_connect mergeDemoContext (0, 0) ⟨20⟩ ⟨21⟩ ConnectionType.Inputs
              (InputValue.Number 0) (0, 0) =
            { mergeDemoContext with
              inputs := minsert mergeDemoContext.inputs inp parent,
              input_output := minsert mergeDemoContext.input_output inp outp,
              connections := minsert mergeDemoContext.connections
                (PortId.mk 21, c.id) ((0, 0), cpos) }) :=
  (can_connect_protocol mergeDemoContext (0, 0) ⟨20⟩ ⟨21⟩
    ConnectionType.Inputs (InputValue.Number 0) (0, 0)).1
